import Mathlib

/-!
Verification of the clowdy invocation subsystem against its specification.

The definitions below are a shallow embedding of the Python sources:
  - `backend/app/services/assignment_service.py` (warm pool)
  - `backend/app/services/worker_service.py`     (worker execute)
  - `backend/app/services/invoke_service.py`     (orchestrator)
  - `backend/app/routers/gateway.py`             (route matcher, event body)
  - `backend/app/services/image_builder.py`      (manifest hash)

External calls (the Docker engine, `json.loads`) are modelled as explicit
input oracles; wall-clock timestamps are explicit `Int` parameters.
-/

/-- JSON values as produced by `json.loads` (numbers restricted to `Int`,
which suffices for every claim considered here). -/
inductive Json where
  | null : Json
  | bool (b : Bool) : Json
  | num (n : Int) : Json
  | str (s : String) : Json
  | arr (xs : List Json) : Json
  | obj (fs : List (String × Json)) : Json

namespace Pool

/-- Pool key: `(image_name, network_enabled)`. -/
abbrev Key := String × Bool

/-- `PoolEntry` from `assignment_service.py`: a warm container and the time
it was put back into the pool. -/
structure Entry where
  container : Nat
  idleSince : Int
deriving DecidableEq, Repr

/-- The pool `self._pool : dict[tuple, list[PoolEntry]]`.  A Python dict is
insertion ordered, so it is modelled as an association list whose keys are
unique (`keysNodup` below); iteration order is list order. -/
abbrev PoolState := List (Key × List Entry)

/-- Keys of the pool dict. -/
def keys (s : PoolState) : List Key := s.map (·.1)

/-- The dict invariant: keys are unique. -/
def keysNodup (s : PoolState) : Prop := (keys s).Nodup

/-- `self._pool.get(key, [])`. -/
def lookupD (s : PoolState) (k : Key) : List Entry :=
  match s.find? (fun kv => kv.1 = k) with
  | some kv => kv.2
  | none => []

/-- Whether `key in self._pool`. -/
def hasKey (s : PoolState) (k : Key) : Bool := s.any (fun kv => kv.1 = k)

/-- `self._pool[key] = v` for a key already present (replaces the value at
the first occurrence of `k`, keeping dict order). -/
def setExisting (s : PoolState) (k : Key) (v : List Entry) : PoolState :=
  match s with
  | [] => []
  | kv :: rest =>
    if kv.1 = k then (k, v) :: rest else kv :: setExisting rest k v

/-- `self._pool[key] = v`: replace if present, else insert at the end
(Python dict insertion order). -/
def setKey (s : PoolState) (k : Key) (v : List Entry) : PoolState :=
  if hasKey s k then setExisting s k v else s ++ [(k, v)]

/-- `del self._pool[key]`. -/
def delKey (s : PoolState) (k : Key) : PoolState :=
  match s with
  | [] => []
  | kv :: rest => if kv.1 = k then rest else kv :: delKey rest k

/-- `self._total_count()`: total entries across all keys. -/
def totalCount (s : PoolState) : Nat := (s.map (fun kv => kv.2.length)).sum

/-- All entries in scan order (keys in dict order, then list order). -/
def flatEntries (s : PoolState) : List Entry := s.flatMap (·.2)

/-- `AssignmentService.acquire`: pop the most recently released entry for
the key (`entries.pop()` pops the last element).  Returns the container
(or `none`) and the new pool. -/
def acquire (s : PoolState) (image : String) (net : Bool) :
    Option Nat × PoolState :=
  let key : Key := (image, net)
  let entries := lookupD s key
  match entries.getLast? with
  | some e => (some e.container, setKey s key entries.dropLast)
  | none => (none, s)

/-- The inner-loop accumulator update of `_evict_lru`:
`if entry.idle_since < oldest_time: oldest_* = ...`.
The accumulator is `none` while `oldest_time` is still `inf`. -/
def scanStep (acc : Option (Int × Key × Nat)) (x : Key × Nat × Entry) :
    Option (Int × Key × Nat) :=
  match acc with
  | none => some (x.2.2.idleSince, x.1, x.2.1)
  | some (t, k, i) =>
    if x.2.2.idleSince < t then some (x.2.2.idleSince, x.1, x.2.1)
    else some (t, k, i)

/-- Scan order of the `_evict_lru` double loop: every `(key, idx, entry)`
triple, keys in dict order, entries in list order. -/
def flatPairs (s : PoolState) : List (Key × Nat × Entry) :=
  s.flatMap (fun kv => kv.2.enum.map (fun ie => (kv.1, ie.1, ie.2)))

/-- The scanning phase of `_evict_lru`: find `(oldest_time, oldest_key,
oldest_idx)` by the strict `<` update over the double loop. -/
def evictScan (s : PoolState) : Option (Int × Key × Nat) :=
  s.foldl
    (fun acc kv =>
      kv.2.enum.foldl (fun a ie => scanStep a (kv.1, ie.1, ie.2)) acc)
    none

/-- The removal phase of `_evict_lru`:
`self._pool[oldest_key].pop(oldest_idx)`, then
`del self._pool[oldest_key]` when the list became empty. -/
def evictRemove (s : PoolState) (k : Key) (i : Nat) : PoolState :=
  let es' := (lookupD s k).eraseIdx i
  if es' = [] then delKey s k else setKey s k es'

/-- `_evict_lru`: scan for the oldest entry, pop it from its key's list,
drop the key if its list became empty.  Returns the new pool and the
removed entry (the one whose container is destroyed). -/
def evictLRU (s : PoolState) : PoolState × Option Entry :=
  match evictScan s with
  | none => (s, none)
  | some (_, k, i) =>
    match (lookupD s k).get? i with
    | none => (s, none)
    | some e => (evictRemove s k i, some e)

/-- Reference recursion for the `_evict_lru` scan: keep the current best
`(oldest_time, oldest_key, oldest_idx)` unless a strictly smaller
`idle_since` appears later. -/
def firstMin (b : Int × Key × Nat) : List (Key × Nat × Entry) →
    Int × Key × Nat
  | [] => b
  | x :: xs =>
    firstMin (if x.2.2.idleSince < b.1 then (x.2.2.idleSince, x.1, x.2.1)
      else b) xs

/-- `AssignmentService.release`: evict if the pool is at (or beyond)
capacity, then append a fresh entry with `idle_since = now`. -/
def release (maxPoolSize : Nat) (s : PoolState) (c : Nat) (image : String)
    (net : Bool) (now : Int) : PoolState :=
  let key : Key := (image, net)
  let s1 := if totalCount s ≥ maxPoolSize then (evictLRU s).1 else s
  setKey s1 key (lookupD s1 key ++ [⟨c, now⟩])

/-- `AssignmentService.reap`: drop entries idle longer than `idle_timeout`,
then drop empty keys.  Returns the new pool and the removed containers. -/
def reap (idleTimeout : Int) (s : PoolState) (now : Int) :
    PoolState × List Entry :=
  let filtered := s.map
    (fun kv => (kv.1, kv.2.filter (fun e => ¬ now - e.idleSince > idleTimeout)))
  let removed := s.flatMap
    (fun kv => kv.2.filter (fun e => now - e.idleSince > idleTimeout))
  (filtered.filter (fun kv => ¬ kv.2 = []), removed)

/-- `AssignmentService.shutdown`: destroy everything, clear the pool. -/
def shutdown (_s : PoolState) : PoolState := []

/-- One interleaved pool operation (claim C1 quantifies over sequences of
these).  Timestamps are explicit inputs. -/
inductive Op where
  | acquire (image : String) (net : Bool) : Op
  | release (c : Nat) (image : String) (net : Bool) (now : Int) : Op
  | reap (now : Int) : Op

/-- Apply one operation to the pool state. -/
def stepOp (maxPoolSize : Nat) (idleTimeout : Int) (s : PoolState) :
    Op → PoolState
  | .acquire image net => (acquire s image net).2
  | .release c image net now => release maxPoolSize s c image net now
  | .reap now => (reap idleTimeout s now).1

/-- Run a sequence of operations from a starting state. -/
def run (maxPoolSize : Nat) (idleTimeout : Int) (ops : List Op)
    (s : PoolState) : PoolState :=
  ops.foldl (stepOp maxPoolSize idleTimeout) s

/-- Engine-visible events, used to model the lock discipline of
`assignment_service.py` (claim C9). -/
inductive Event where
  | lock : Event
  | unlock : Event
  | destroy (c : Nat) : Event

/-- Event trace of `release`: the lock is taken, eviction (including the
`entry.container.remove(force=True)` inside `_evict_lru`) happens while it
is held, then the lock is dropped. -/
def releaseTrace (maxPoolSize : Nat) (s : PoolState) : List Event :=
  Event.lock ::
    (if totalCount s ≥ maxPoolSize then
      match (evictLRU s).2 with
      | some e => [Event.destroy e.container]
      | none => []
    else []) ++ [Event.unlock]

/-- Event trace of `reap`: evictees are collected under the lock and their
containers removed after it is dropped. -/
def reapTrace (idleTimeout : Int) (s : PoolState) (now : Int) : List Event :=
  [Event.lock, Event.unlock] ++
    (reap idleTimeout s now).2.map (fun e => Event.destroy e.container)

/-- Event trace of `shutdown`: every pooled container is removed inside the
`with self._lock:` block. -/
def shutdownTrace (s : PoolState) : List Event :=
  Event.lock :: (flatEntries s).map (fun e => Event.destroy e.container)
    ++ [Event.unlock]

/-- Whether some destroy event occurs while the lock is held (lock depth
positive at that point of the trace). -/
def destroyInsideLockAux (depth : Nat) : List Event → Bool
  | [] => false
  | Event.lock :: rest => destroyInsideLockAux (depth + 1) rest
  | Event.unlock :: rest => destroyInsideLockAux (depth - 1) rest
  | Event.destroy _ :: rest =>
    if depth > 0 then true else destroyInsideLockAux depth rest

def destroyInsideLock (evs : List Event) : Bool :=
  destroyInsideLockAux 0 evs

end Pool

namespace Py

/-- Characters treated as whitespace by Python's `str.strip()`. -/
def isSpace (c : Char) : Bool :=
  let n := c.toNat
  (9 ≤ n && n ≤ 13) || n = 32 || (28 ≤ n && n ≤ 31) || n = 133 || n = 160 ||
    n = 5760 || (8192 ≤ n && n ≤ 8202) || n = 8232 || n = 8233 || n = 8239 ||
    n = 8287 || n = 12288

/-- Embedding of `str.strip()`: drop leading and trailing whitespace. -/
def strip (s : String) : String :=
  String.mk (((s.toList.dropWhile isSpace).reverse.dropWhile isSpace).reverse)

/-- Embedding of `str.startswith(t)`, character-wise. -/
def startsWith (s t : String) : Bool :=
  t.toList.isPrefixOf s.toList

/-- Line boundary characters of Python's `str.splitlines()`
(`\r\n` is handled as a single boundary in `splitlinesAux`). -/
def isLineBoundary (c : Char) : Bool :=
  let n := c.toNat
  n = 10 || n = 11 || n = 12 || n = 13 || n = 28 || n = 29 || n = 30 ||
    n = 133 || n = 8232 || n = 8233

def splitlinesAux : List Char → List Char → List String
  | [], acc => if acc = [] then [] else [String.mk acc.reverse]
  | '\r' :: '\n' :: cs, acc => String.mk acc.reverse :: splitlinesAux cs []
  | c :: cs, acc =>
    if isLineBoundary c then
      String.mk acc.reverse :: splitlinesAux cs []
    else splitlinesAux cs (c :: acc)

/-- `str.splitlines()`: no trailing empty line for a trailing newline. -/
def splitlines (s : String) : List String := splitlinesAux s.toList []

end Py

namespace Worker

/-- `TIMEOUT_SECONDS = 30` from `worker_service.py`.  (It is defined there
but never passed to `exec_run`; see claim C2.) -/
def TIMEOUT_SECONDS : Nat := 30

/-- Observable behavior of one sandbox for one invocation: whether the
`put_archive` code injection succeeds, the exit code and (decoded) stdout
of the exec, the outcome of `json.loads` on the stripped stdout, and the
wall-clock duration in seconds of the in-sandbox process. -/
structure Behavior where
  injectOk : Bool
  execExit : Int
  execStdout : String
  stdoutParse : Option Json
  duration : Nat

/-- Sandbox operations the worker can perform.  `destroyA` and `poolA`
exist so that "the worker never destroys or pools" is expressible. -/
inductive Action where
  | inject : Action
  | execA : Action
  | destroyA : Action
  | poolA : Action
deriving DecidableEq

/-- The engine exec call.  A deadline, were one supplied, would kill the
process and yield the timeout sentinel; `worker_service.execute` invokes
`container.exec_run` with no timeout argument, i.e. with `none`. -/
def execRun (b : Behavior) (deadline : Option Nat) : Int × String :=
  match deadline with
  | none => (b.execExit, b.execStdout)
  | some t => if b.duration > t then (137, "") else (b.execExit, b.execStdout)

/-- Result dict of `worker_service.execute`: `{success, output}`. -/
structure Result where
  success : Bool
  output : Json

/-- The environment dict built by `worker_service.execute`:
project vars first, then `INPUT_JSON` and `FUNCTION_NAME` override. -/
def buildExecEnv (envVars : List (String × String)) (inputJson : String)
    (functionName : String) : List (String × String) :=
  let base := envVars.filter
    (fun kv => kv.1 ≠ "INPUT_JSON" && kv.1 ≠ "FUNCTION_NAME")
  base ++ [("INPUT_JSON", inputJson), ("FUNCTION_NAME", functionName)]

/-- `worker_service.execute`.  `Except.error` models a propagated Python
exception (the code wraps neither `put_archive` nor the non-dict
`error_data.get` call in a handler); the `List Action` records which
sandbox operations were attempted. -/
def execute (b : Behavior) : Except String Result × List Action :=
  if b.injectOk = false then
    (Except.error "put_archive failed", [Action.inject])
  else
    let r := execRun b none
    let stdout := Py.strip r.2
    let parse := if stdout = "" then none else b.stdoutParse
    if r.1 ≠ 0 then
      let errorMsg := if stdout = "" then "Function exited with an error"
        else stdout
      match parse with
      | some (Json.obj fs) =>
        (Except.ok ⟨false,
            (((fs.find? (fun f => f.1 = "error")).map (·.2)).getD
              (Json.str errorMsg))⟩,
          [Action.inject, Action.execA])
      | some _ =>
        (Except.error "AttributeError: no attribute get",
          [Action.inject, Action.execA])
      | none =>
        (Except.ok ⟨false, Json.str errorMsg⟩, [Action.inject, Action.execA])
    else
      match parse with
      | some j => (Except.ok ⟨true, j⟩, [Action.inject, Action.execA])
      | none =>
        (Except.ok ⟨true, Json.str stdout⟩, [Action.inject, Action.execA])

end Worker

namespace Invoke

/-- Result dict of `InvokeService._do_invoke` (duration omitted: wall-clock
timing is not modelled). -/
structure Outcome where
  success : Bool
  output : Json
  coldStart : Bool

/-- `InvokeService._do_invoke`: acquire or cold-start a container, run the
worker, then destroy (worker raised) or release (worker returned).
`newContainer` is the id `placement.create` would return on a cold start;
`now` is the time `release` stamps as `idle_since`. -/
def doInvoke (maxPoolSize : Nat) (s : Pool.PoolState) (b : Worker.Behavior)
    (newContainer : Nat) (image : String) (net : Bool) (now : Int) :
    Outcome × Pool.PoolState :=
  let a := Pool.acquire s image net
  let coldStart := a.1.isNone
  let container := a.1.getD newContainer
  match (Worker.execute b).1 with
  | Except.error msg =>
    (⟨false, Json.str ("Execution error: " ++ msg), coldStart⟩, a.2)
  | Except.ok r =>
    (⟨r.success, r.output, coldStart⟩,
      Pool.release maxPoolSize a.2 container image net now)

end Invoke

namespace Gateway

/-- A stored route row: method ∈ {GET, POST, PUT, DELETE, PATCH, ANY},
path a `/`-joined sequence of literal or `:name` segments. -/
structure Route where
  method : String
  path : String
  functionId : Nat
deriving DecidableEq, Repr

/-- Python's `str.split(sep)` for a one-character separator: always returns
at least one (possibly empty) piece. -/
def splitOnChar (sep : Char) : List Char → List (List Char)
  | [] => [[]]
  | c :: cs =>
    match splitOnChar sep cs with
    | [] => [[c]]
    | h :: t => if c = sep then [] :: h :: t else (c :: h) :: t

/-- `pattern.split("/")` with empty segments dropped, as in
`_path_pattern_to_regex` (`if not segment: continue`). -/
def patSegs (pattern : List Char) : List (List Char) :=
  (splitOnChar '/' pattern).filter (· ≠ [])

/-- One compiled segment of the route regex applied to one path segment:
`:name` compiles to `(?P<name>[^/]+)` (any non-empty `/`-free segment,
binding `name`); a literal matches itself byte-for-byte. -/
def segMatch (pseg x : List Char) : Option (List (String × String)) :=
  match pseg with
  | ':' :: name =>
    if x ≠ [] ∧ '/' ∉ x then some [(String.mk name, String.mk x)] else none
  | _ => if x = pseg then some [] else none

/-- Matching the joined segments, accumulating captured parameters. -/
def segsMatch : List (List Char) → List (List Char) →
    Option (List (String × String))
  | [], [] => some []
  | ps :: pss, x :: xs =>
    match segMatch ps x, segsMatch pss xs with
    | some b, some rest => some (b ++ rest)
    | _, _ => none
  | _, _ => none

/-- The compiled route regex `^/seg1/…/segn$` applied to a path.  Since no
compiled segment can match across or onto a `/`, the regex match is
equivalent to a leading `/` plus a segment-wise match of the `/`-split
remainder; this is the semantics embedded here. -/
def patMatch (pattern : List Char) (np : List Char) :
    Option (List (String × String)) :=
  match np with
  | '/' :: body =>
    match patSegs pattern with
    | [] => if body = [] then some [] else none
    | ps => segsMatch ps (splitOnChar '/' body)
  | _ => none

/-- Trailing-slash stripping of `_match_route`: strip when the path is
longer than `"/"` and ends with `/` (Python `rstrip` removes every
trailing slash). -/
def normTrail (p1 : List Char) : List Char :=
  if p1.length > 1 ∧ p1.getLast? = some '/' then
    (p1.reverse.dropWhile (· = '/')).reverse
  else p1

/-- Path normalization in `_match_route`: ensure a leading `/`, then strip
trailing slashes. -/
def normalize (p : List Char) : List Char :=
  normTrail (if p.head? = some '/' then p else '/' :: p)

/-- `str.upper()` (ASCII, which covers HTTP methods). -/
def pyUpper (s : String) : String := String.mk (s.toList.map Char.toUpper)

/-- One pass of the `_match_route` loop: the first route in store order
whose method equals `checkMethod` and whose pattern matches. -/
def scanRoutes (routes : List Route) (checkMethod : String)
    (np : List Char) : Option (Route × List (String × String)) :=
  routes.findSome? (fun r =>
    if r.method = checkMethod then
      (patMatch r.path.toList np).map (fun ps => (r, ps))
    else none)

/-- `_match_route`: uppercase the method, normalize the path, scan with the
exact method and then with `"ANY"`. -/
def matchRoute (routes : List Route) (method : String)
    (requestPath : String) : Option (Route × List (String × String)) :=
  let m := pyUpper method
  let np := normalize requestPath.toList
  [m, "ANY"].findSome? (fun cm => scanRoutes routes cm np)

/-- Strict UTF-8 decoding (`bytes.decode("utf-8")`), `none` on invalid
input.  The fuel argument of the helper bounds recursion depth; any fuel
of at least the list length gives the decoder's value. -/
def utf8DecodeAux : Nat → List Nat → Option (List Char)
  | _, [] => some []
  | 0, _ :: _ => none
  | fuel + 1, b :: bs =>
    if b < 128 then (utf8DecodeAux fuel bs).map (fun cs => Char.ofNat b :: cs)
    else if b < 194 then none
    else if b < 224 then
      match bs with
      | c1 :: rest =>
        if 128 ≤ c1 ∧ c1 < 192 then
          (utf8DecodeAux fuel rest).map
            (fun cs => Char.ofNat ((b - 192) * 64 + (c1 - 128)) :: cs)
        else none
      | [] => none
    else if b < 240 then
      match bs with
      | c1 :: c2 :: rest =>
        let n := (b - 224) * 4096 + (c1 - 128) * 64 + (c2 - 128)
        if (128 ≤ c1 ∧ c1 < 192) ∧ (128 ≤ c2 ∧ c2 < 192) ∧ 2048 ≤ n ∧
            ¬ (55296 ≤ n ∧ n < 57344) then
          (utf8DecodeAux fuel rest).map (fun cs => Char.ofNat n :: cs)
        else none
      | _ => none
    else if b < 245 then
      match bs with
      | c1 :: c2 :: c3 :: rest =>
        let n := (b - 240) * 262144 + (c1 - 128) * 4096 + (c2 - 128) * 64 +
          (c3 - 128)
        if (128 ≤ c1 ∧ c1 < 192) ∧ (128 ≤ c2 ∧ c2 < 192) ∧
            (128 ≤ c3 ∧ c3 < 192) ∧ 65536 ≤ n ∧ n ≤ 1114111 then
          (utf8DecodeAux fuel rest).map (fun cs => Char.ofNat n :: cs)
        else none
      | _ => none
    else none

def utf8Decode (bs : List Nat) : Option String :=
  (utf8DecodeAux bs.length bs).map String.mk

/-- The event `body` computed by `_handle_gateway` step 5.  `parse` is the
outcome of `await request.json()` on the raw bytes (Starlette parses the
bytes with `json.loads`, with no Content-Type check); `Except.error`
models an uncaught `UnicodeDecodeError` from `raw.decode("utf-8")`, which
surfaces as a 500 response. -/
def gatewayBody (method : String) (parse : Option Json) (raw : List Nat) :
    Except Unit Json :=
  if method = "POST" ∨ method = "PUT" ∨ method = "PATCH" then
    match parse with
    | some j => Except.ok j
    | none =>
      if raw = [] then Except.ok Json.null
      else
        match utf8Decode raw with
        | some s => Except.ok (Json.str s)
        | none => Except.error ()
  else Except.ok Json.null

/-- The body field as claim C7 words it: parsed JSON when the Content-Type
accepts JSON and parsing succeeds; otherwise the UTF-8 decoding of the
bytes when valid; otherwise null.  (Stated from the claim, to be compared
with `gatewayBody`, the embedding of the code.) -/
def claimedBody (ctAcceptsJson : Bool) (parse : Option Json)
    (raw : List Nat) : Json :=
  match ctAcceptsJson, parse with
  | true, some j => j
  | _, _ =>
    match utf8Decode raw with
    | some s => Json.str s
    | none => Json.null

/-- Function row fields the gateway reads. -/
structure Fn where
  name : String
  status : String
deriving DecidableEq, Repr

/-- `db.get(Function, id)` over an in-memory function table. -/
def lookupFn (functions : List (Nat × Fn)) (fid : Nat) : Option Fn :=
  (functions.find? (fun kv => kv.1 = fid)).map (·.2)

/-- Result of `_handle_gateway` steps 2–4: an early `HTTPException` or
"proceed to invoke" with the matched route and captured params. -/
inductive Step where
  | httpError (status : Nat) (detail : String) : Step
  | proceed (r : Route) (params : List (String × String)) : Step
deriving DecidableEq, Repr

/-- Embedding of `request_path = "/" + path if path else "/"` from
`_handle_gateway`. -/
def requestPathOf (path : String) : String :=
  if path ≠ "" then "/" ++ path else "/"

/-- Embedding of `_handle_gateway` steps 2–4 (project already resolved by
slug): no routes → 404; no match → 404; missing or non-active function
→ 503. -/
def routeDispatch (routes : List Route) (functions : List (Nat × Fn))
    (method : String) (path : String) : Step :=
  if routes = [] then Step.httpError 404 "No routes configured for this project"
  else
    match matchRoute routes method (requestPathOf path) with
    | none =>
      Step.httpError 404 ("No route matches " ++ method ++ " " ++
        requestPathOf path)
    | some (r, params) =>
      match lookupFn functions r.functionId with
      | none =>
        Step.httpError 503 "The function for this route is not available"
      | some fn =>
        if fn.status = "active" then Step.proceed r params
        else Step.httpError 503 "The function for this route is not available"

end Gateway

namespace Worker

/-- Whether `worker_service.execute` raises (its result propagates as a
Python exception rather than a `{success, output}` dict). -/
def raised (b : Behavior) : Bool :=
  match (execute b).1 with
  | Except.error _ => true
  | Except.ok _ => false

end Worker

namespace Hash

/-- UTF-8 encoding of one scalar value (`str.encode()`). -/
def utf8Char (c : Char) : List Nat :=
  let n := c.toNat
  if n < 128 then [n]
  else if n < 2048 then [192 + n / 64, 128 + n % 64]
  else if n < 65536 then
    [224 + n / 4096, 128 + (n / 64) % 64, 128 + n % 64]
  else
    [240 + n / 262144, 128 + (n / 4096) % 64, 128 + (n / 64) % 64,
      128 + n % 64]

def utf8Encode (s : String) : List Nat := s.toList.flatMap utf8Char

/-- 32-bit modulus for SHA-256 word arithmetic. -/
def w32 : Nat := 4294967296

def add32 (a b : Nat) : Nat := (a + b) % w32

def rotr (x n : Nat) : Nat := ((x >>> n) ||| (x <<< (32 - n))) % w32

def not32 (x : Nat) : Nat := x ^^^ 4294967295

def chv (x y z : Nat) : Nat := (x &&& y) ^^^ (not32 x &&& z)

def maj (x y z : Nat) : Nat := (x &&& y) ^^^ (x &&& z) ^^^ (y &&& z)

def bigSigma0 (x : Nat) : Nat := rotr x 2 ^^^ rotr x 13 ^^^ rotr x 22

def bigSigma1 (x : Nat) : Nat := rotr x 6 ^^^ rotr x 11 ^^^ rotr x 25

def smallSigma0 (x : Nat) : Nat := rotr x 7 ^^^ rotr x 18 ^^^ (x >>> 3)

def smallSigma1 (x : Nat) : Nat := rotr x 17 ^^^ rotr x 19 ^^^ (x >>> 10)

/-- SHA-256 round constants (decimal). -/
def K64 : List Nat :=
  [1116352408, 1899447441, 3049323471, 3921009573, 961987163, 1508970993,
   2453635748, 2870763221, 3624381080, 310598401, 607225278, 1426881987,
   1925078388, 2162078206, 2614888103, 3248222580, 3835390401, 4022224774,
   264347078, 604807628, 770255983, 1249150122, 1555081692, 1996064986,
   2554220882, 2821834349, 2952996808, 3210313671, 3336571891, 3584528711,
   113926993, 338241895, 666307205, 773529912, 1294757372, 1396182291,
   1695183700, 1986661051, 2177026350, 2456956037, 2730485921, 2820302411,
   3259730800, 3345764771, 3516065817, 3600352804, 4094571909, 275423344,
   430227734, 506948616, 659060556, 883997877, 958139571, 1322822218,
   1537002063, 1747873779, 1955562222, 2024104815, 2227730452, 2361852424,
   2428436474, 2756734187, 3204031479, 3329325298]

/-- SHA-256 initial hash value (decimal). -/
def H0 : List Nat :=
  [1779033703, 3144134277, 1013904242, 2773480762, 1359893119, 2600822924,
   528734635, 1541459225]

/-- Big-endian 8-byte encoding of the message bit length. -/
def be64 (n : Nat) : List Nat :=
  [(n >>> 56) % 256, (n >>> 48) % 256, (n >>> 40) % 256, (n >>> 32) % 256,
   (n >>> 24) % 256, (n >>> 16) % 256, (n >>> 8) % 256, n % 256]

/-- SHA-256 padding: `0x80`, zeros to 56 mod 64, 64-bit bit length. -/
def padMsg (msg : List Nat) : List Nat :=
  msg ++ 128 :: List.replicate ((120 - (msg.length + 1) % 64) % 64) 0 ++
    be64 (8 * msg.length)

/-- Split into 64-byte blocks. -/
def chunks64 (l : List Nat) : List (List Nat) :=
  match l with
  | [] => []
  | x :: xs => (x :: xs).take 64 :: chunks64 ((x :: xs).drop 64)
termination_by l.length
decreasing_by simp; omega

/-- Big-endian 32-bit words from bytes. -/
def toWords : List Nat → List Nat
  | b0 :: b1 :: b2 :: b3 :: rest =>
    (((b0 * 256 + b1) * 256 + b2) * 256 + b3) :: toWords rest
  | _ => []

/-- Message-schedule extension by `n` further words. -/
def extendW (w : List Nat) : Nat → List Nat
  | 0 => w
  | n + 1 =>
    extendW
      (w ++ [add32
        (add32 (smallSigma1 (w.getD (w.length - 2) 0)) (w.getD (w.length - 7) 0))
        (add32 (smallSigma0 (w.getD (w.length - 15) 0))
          (w.getD (w.length - 16) 0))]) n

/-- The eight working registers of the compression function. -/
structure Regs where
  a : Nat
  b : Nat
  c : Nat
  d : Nat
  e : Nat
  f : Nat
  g : Nat
  h : Nat

def roundStep (r : Regs) (kw : Nat × Nat) : Regs :=
  let t1 := add32 r.h
    (add32 (bigSigma1 r.e) (add32 (chv r.e r.f r.g) (add32 kw.1 kw.2)))
  let t2 := add32 (bigSigma0 r.a) (maj r.a r.b r.c)
  ⟨add32 t1 t2, r.a, r.b, r.c, add32 r.d t1, r.e, r.f, r.g⟩

def compressBlock (H : List Nat) (block : List Nat) : List Nat :=
  let w := extendW (toWords block) 48
  let i : Regs := ⟨H.getD 0 0, H.getD 1 0, H.getD 2 0, H.getD 3 0,
    H.getD 4 0, H.getD 5 0, H.getD 6 0, H.getD 7 0⟩
  let r := (K64.zip w).foldl roundStep i
  [add32 (H.getD 0 0) r.a, add32 (H.getD 1 0) r.b, add32 (H.getD 2 0) r.c,
   add32 (H.getD 3 0) r.d, add32 (H.getD 4 0) r.e, add32 (H.getD 5 0) r.f,
   add32 (H.getD 6 0) r.g, add32 (H.getD 7 0) r.h]

def sha256Words (msg : List Nat) : List Nat :=
  (chunks64 (padMsg msg)).foldl compressBlock H0

def hexDigit (n : Nat) : Char :=
  Char.ofNat (if n < 10 then 48 + n else 87 + n)

def hex8 (w : Nat) : List Char :=
  (List.range 8).map (fun i => hexDigit ((w >>> (28 - 4 * i)) % 16))

/-- `hashlib.sha256(bytes).hexdigest()`. -/
def sha256Hex (msg : List Nat) : String :=
  String.mk ((sha256Words msg).flatMap hex8)

/-- The filter in `compute_requirements_hash`:
`if line.strip() and not line.strip().startswith("#")`. -/
def relevantLine (l : String) : Bool :=
  !(Py.strip l == "") && !(Py.startsWith (Py.strip l) ("#"))

/-- Stripped relevant lines of an already-split line list. -/
def canonOf (L : List String) : List String :=
  (L.filter relevantLine).map Py.strip

/-- The stripped relevant lines of a manifest, before sorting. -/
def canonLines (s : String) : List String := canonOf (Py.splitlines s)

/-- `sorted(...)`: Python's stable sort; on a list of strings the result
is the unique ≤-sorted permutation, modelled by `mergeSort`. -/
def sortedLines (s : String) : List String :=
  (canonLines s).mergeSort (fun a b => decide (a ≤ b))

/-- The canonical form whose SHA-256 is the manifest hash. -/
def canonContent (s : String) : String :=
  String.intercalate "\n" (sortedLines s)

/-- `image_builder.compute_requirements_hash`. -/
def compute_requirements_hash (s : String) : String :=
  sha256Hex (utf8Encode (canonContent s))

/-- A line that the canonicalization discards: blank after stripping, or a
`#` comment. -/
def irrelevantLine (l : String) : Prop :=
  Py.strip l = "" ∨ Py.startsWith (Py.strip l) ("#") = true

/-- A whitespace-only or comment-line perturbation, on split line lists:
lines may change leading/trailing whitespace, and blank or comment lines
may be inserted or removed anywhere. -/
inductive WsCommentPerturb : List String → List String → Prop where
  | nil : WsCommentPerturb [] []
  | line {a b : String} {l l' : List String} : Py.strip a = Py.strip b →
    WsCommentPerturb l l' → WsCommentPerturb (a :: l) (b :: l')
  | dropL {a : String} {l l' : List String} : irrelevantLine a →
    WsCommentPerturb l l' → WsCommentPerturb (a :: l) l'
  | dropR {b : String} {l l' : List String} : irrelevantLine b →
    WsCommentPerturb l l' → WsCommentPerturb l (b :: l')

end Hash

/-! ### Lemmas: manifest hash canonicalization (C5) -/

namespace Hash

theorem relevantLine_eq_false_of_irrelevant {l : String}
    (h : irrelevantLine l) : relevantLine l = false := by
  unfold relevantLine
  rcases h with h | h
  · simp [h]
  · simp [h]

theorem canonOf_perturb {L L' : List String} (h : WsCommentPerturb L L') :
    canonOf L = canonOf L' := by
  induction h with
  | nil => rfl
  | @line a b l l' hab _ ih =>
    have hr : relevantLine a = relevantLine b := by
      unfold relevantLine; rw [hab]
    by_cases hrb : relevantLine b = true
    · simp only [canonOf, List.filter_cons, hr, hrb, if_true, List.map_cons,
        hab]
      exact congrArg _ ih
    · simp only [Bool.not_eq_true] at hrb
      simp only [canonOf, List.filter_cons, hr, hrb, Bool.false_eq_true,
        if_false]
      exact ih
  | @dropL a l l' ha _ ih =>
    simp only [canonOf, List.filter_cons, relevantLine_eq_false_of_irrelevant ha,
      Bool.false_eq_true, if_false]
    exact ih
  | @dropR b l l' hb _ ih =>
    simp only [canonOf, List.filter_cons, relevantLine_eq_false_of_irrelevant hb,
      Bool.false_eq_true, if_false]
    exact ih

theorem mergeSort_eq_of_perm {l l' : List String} (h : l.Perm l') :
    l.mergeSort (fun a b => decide (a ≤ b)) =
      l'.mergeSort (fun a b => decide (a ≤ b)) := by
  have htrans : ∀ a b c : String,
      (fun a b => decide (a ≤ b)) a b → (fun a b => decide (a ≤ b)) b c →
        (fun a b => decide (a ≤ b)) a c := by
    intro a b c hab hbc
    simp only [decide_eq_true_eq] at *
    exact le_trans hab hbc
  have htotal : ∀ a b : String,
      ((fun a b => decide (a ≤ b)) a b || (fun a b => decide (a ≤ b)) b a) := by
    intro a b
    simp [le_total]
  have hs1 : (l.mergeSort (fun a b => decide (a ≤ b))).Sorted (· ≤ ·) :=
    (List.sorted_mergeSort htrans htotal l).imp (fun h => by simpa using h)
  have hs2 : (l'.mergeSort (fun a b => decide (a ≤ b))).Sorted (· ≤ ·) :=
    (List.sorted_mergeSort htrans htotal l').imp (fun h => by simpa using h)
  exact List.eq_of_perm_of_sorted
    ((List.mergeSort_perm l _).trans (h.trans (List.mergeSort_perm l' _).symm))
    hs1 hs2

theorem hash_eq_of_canonPerm {M M' : String}
    (h : (canonLines M).Perm (canonLines M')) :
    compute_requirements_hash M = compute_requirements_hash M' := by
  unfold compute_requirements_hash canonContent sortedLines
  rw [mergeSort_eq_of_perm h]

end Hash

/-- C5: the manifest hash is SHA-256 of the canonical form (lines trimmed,
blank and `#`-comment lines removed, remaining lines sorted, joined with
newlines); hence the hash is invariant under whitespace-only or
comment-line perturbations and under permutations of the manifest's
lines. -/
theorem claim5_hash_canonicalization :
    (∀ M : String, Hash.compute_requirements_hash M =
      Hash.sha256Hex (Hash.utf8Encode (String.intercalate "\n"
        ((Hash.canonLines M).mergeSort (fun a b => decide (a ≤ b)))))) ∧
    (∀ M M' : String,
      Hash.WsCommentPerturb (Py.splitlines M) (Py.splitlines M') →
      Hash.compute_requirements_hash M = Hash.compute_requirements_hash M') ∧
    (∀ M M'' : String, (Py.splitlines M'').Perm (Py.splitlines M) →
      Hash.compute_requirements_hash M'' =
        Hash.compute_requirements_hash M) := by
  refine ⟨fun M => rfl, fun M M' h => ?_, fun M M'' h => ?_⟩
  · have he : Hash.canonLines M = Hash.canonLines M' := Hash.canonOf_perturb h
    exact Hash.hash_eq_of_canonPerm (he ▸ List.Perm.refl _)
  · exact Hash.hash_eq_of_canonPerm ((h.filter _).map _)

/-- Witness for C5 at concrete manifests: a comment line, blank line and
surrounding whitespace do not change the hash; neither does reordering. -/
theorem claim5_hash_canonicalization_witness :
    Hash.compute_requirements_hash "requests\n# tooling\n\n  numpy  " =
      Hash.compute_requirements_hash "requests\nnumpy" ∧
    Hash.compute_requirements_hash "numpy\nrequests" =
      Hash.compute_requirements_hash "requests\nnumpy" := by
  constructor
  · exact claim5_hash_canonicalization.2.1 _ _
      (Hash.WsCommentPerturb.line (by decide)
        (Hash.WsCommentPerturb.dropL (Or.inr (by decide))
          (Hash.WsCommentPerturb.dropL (Or.inl (by decide))
            (Hash.WsCommentPerturb.line (by decide)
              Hash.WsCommentPerturb.nil))))
  · exact claim5_hash_canonicalization.2.2 _ _
      (List.Perm.swap "requests" "numpy" [])

/-! ### Lemmas: route matching (C6) -/

namespace Gateway

theorem findSome?_first {α β : Type} (f : α → Option β) :
    ∀ (l : List α) (b : β), l.findSome? f = some b →
      ∃ i, ∃ hi : i < l.length, f (l.get ⟨i, hi⟩) = some b ∧
        ∀ j, ∀ hj : j < i, f (l.get ⟨j, Nat.lt_trans hj hi⟩) = none := by
  intro l
  induction l with
  | nil => intro b h; simp [List.findSome?] at h
  | cons x xs ih =>
    intro b h
    rw [List.findSome?_cons] at h
    cases hfx : f x with
    | some y =>
      rw [hfx] at h
      refine ⟨0, by simp, ?_, ?_⟩
      · simpa [hfx] using h
      · intro j hj; omega
    | none =>
      rw [hfx] at h
      obtain ⟨i, hi, h1, h2⟩ := ih b h
      refine ⟨i + 1, by simpa using Nat.succ_lt_succ hi, by simpa using h1, ?_⟩
      intro j hj
      cases j with
      | zero => simpa using hfx
      | succ k => simpa using h2 k (Nat.lt_of_succ_lt_succ hj)

theorem scan_hit {M : String} {np : List Char} {r : Route}
    {y : Route × List (String × String)}
    (h : (if r.method = M then
        (patMatch r.path.toList np).map (fun ps => (r, ps))
      else none) = some y) :
    y.1 = r ∧ r.method = M ∧ patMatch r.path.toList np = some y.2 := by
  by_cases hm : r.method = M
  · rw [if_pos hm] at h
    cases hp : patMatch r.path.toList np with
    | none => rw [hp] at h; simp at h
    | some ps =>
      rw [hp] at h
      simp only [Option.map_some'] at h
      obtain rfl : (r, ps) = y := Option.some_injective _ h
      exact ⟨rfl, hm, by simp [hp]⟩
  · rw [if_neg hm] at h; simp at h

theorem normalize_concat_slash :
    ∀ l : List Char, l.head? = some '/' → l.getLast? ≠ some '/' →
      normalize (l ++ ['/']) = normalize l := by
  intro l h1 h2
  cases l with
  | nil => simp at h1
  | cons c t =>
    have hc : c = '/' := by simpa using h1
    subst hc
    unfold normalize
    have hcond1 : (('/' :: t) ++ ['/']).head? = some '/' := rfl
    have hcond2 : ('/' :: t).head? = some '/' := rfl
    rw [if_pos hcond1, if_pos hcond2]
    have hlen : (('/' :: t) ++ ['/']).length > 1 := by simp
    have hlast : (('/' :: t) ++ ['/']).getLast? = some '/' :=
      List.getLast?_concat _
    unfold normTrail
    rw [if_pos ⟨hlen, hlast⟩, if_neg (fun hx => h2 hx.2)]
    have hrev : (('/' :: t) ++ ['/']).reverse = '/' :: ('/' :: t).reverse := by
      simp
    rw [hrev, List.dropWhile_cons]
    simp only [decide_True, if_true]
    have hne : ('/' :: t).reverse ≠ [] := by simp
    have hhead : ('/' :: t).reverse.head? ≠ some '/' := by
      rw [List.head?_reverse]; exact h2
    cases hr : ('/' :: t).reverse with
    | nil => exact absurd hr hne
    | cons c2 t2 =>
      have hc2 : ¬ (c2 = '/') := by
        rw [hr] at hhead; simpa using hhead
      rw [List.dropWhile_cons]
      simp only [hc2, decide_False, Bool.false_eq_true, if_false]
      rw [← hr, List.reverse_reverse]

end Gateway

/-- C6: the matcher first scans routes whose method equals the (uppercased)
request method and falls back to a scan of `"ANY"` routes only when that
scan finds nothing; within a pass the first route in store order whose
pattern matches the normalized path wins; a `:name` segment matches
exactly the non-empty `/`-free segments, binding the captured value; a
trailing slash on the request path is normalized away. -/
theorem claim6_route_matcher :
    (∀ (routes : List Gateway.Route) (method p : String),
      Gateway.matchRoute routes method p =
        Option.orElse
          (Gateway.scanRoutes routes (Gateway.pyUpper method)
            (Gateway.normalize p.toList))
          (fun _ => Gateway.scanRoutes routes ("ANY")
            (Gateway.normalize p.toList))) ∧
    (∀ (routes : List Gateway.Route) (M : String) (np : List Char)
      (r : Gateway.Route) (ps : List (String × String)),
      Gateway.scanRoutes routes M np = some (r, ps) →
      ∃ i, ∃ hi : i < routes.length, routes.get ⟨i, hi⟩ = r ∧ r.method = M ∧
        Gateway.patMatch r.path.toList np = some ps ∧
        ∀ j, ∀ hj : j < i,
          (routes.get ⟨j, Nat.lt_trans hj hi⟩).method = M →
            Gateway.patMatch (routes.get ⟨j, Nat.lt_trans hj hi⟩).path.toList
              np = none) ∧
    (∀ (name x : List Char),
      Gateway.segMatch (':' :: name) x = some [(String.mk name, String.mk x)]
        ↔ x ≠ [] ∧ '/' ∉ x) ∧
    (∀ q : String, q.toList.head? = some '/' → q.toList.getLast? ≠ some '/' →
      Gateway.normalize ((q ++ "/").toList) = Gateway.normalize q.toList) := by
  refine ⟨?_, ?_, ?_, ?_⟩
  · intro routes method p
    unfold Gateway.matchRoute
    simp only [String.toList]
    cases h : Gateway.scanRoutes routes (Gateway.pyUpper method)
        (Gateway.normalize p.data) with
    | some y => simp [List.findSome?_cons, h, Option.orElse]
    | none =>
      cases h2 : Gateway.scanRoutes routes ("ANY") (Gateway.normalize p.data)
        with
      | some y => simp [List.findSome?_cons, h, h2, Option.orElse]
      | none => simp [List.findSome?_cons, h, h2, Option.orElse]
  · intro routes M np r ps h
    unfold Gateway.scanRoutes at h
    obtain ⟨i, hi, h1, h2⟩ := Gateway.findSome?_first _ routes (r, ps) h
    obtain ⟨e1, e2, e3⟩ := Gateway.scan_hit h1
    have e1' : r = routes.get ⟨i, hi⟩ := e1
    have e3' : Gateway.patMatch (routes.get ⟨i, hi⟩).path.toList np = some ps :=
      e3
    refine ⟨i, hi, e1'.symm, ?_, ?_, ?_⟩
    · rw [e1']; exact e2
    · rw [e1']; exact e3'
    · intro j hj hmeth
      have hz := h2 j hj
      rw [if_pos hmeth] at hz
      exact Option.map_eq_none'.mp hz
  · intro name x
    rw [show Gateway.segMatch (':' :: name) x =
      if x ≠ [] ∧ '/' ∉ x then some [(String.mk name, String.mk x)] else none
      from rfl]
    by_cases h : x ≠ [] ∧ '/' ∉ x
    · simp [h]
    · simp [if_neg h, h]
  · intro q h1 h2
    have hl : (q ++ "/").toList = q.toList ++ ['/'] := by
      show (q ++ "/").data = q.data ++ ['/']
      rw [String.data_append]
    rw [hl]
    exact Gateway.normalize_concat_slash q.toList h1 h2

/-- Witness for C6: the exact-method pass and the `ANY` fallback at a
concrete route table; a first-match existence instance; the `:id` segment
binding on a concrete segment; trailing-slash normalization on a concrete
path. -/
theorem claim6_route_matcher_witness :
    Gateway.matchRoute [⟨"POST", "/a", 1⟩, ⟨"ANY", "/a", 2⟩] "GET" "/a" =
      Option.orElse
        (Gateway.scanRoutes [⟨"POST", "/a", 1⟩, ⟨"ANY", "/a", 2⟩]
          (Gateway.pyUpper "GET") (Gateway.normalize ("/a").toList))
        (fun _ => Gateway.scanRoutes [⟨"POST", "/a", 1⟩, ⟨"ANY", "/a", 2⟩]
          ("ANY") (Gateway.normalize ("/a").toList)) ∧
    (∃ i, ∃ hi : i < ([⟨"GET", "/users/:id", 5⟩] : List Gateway.Route).length,
      ([⟨"GET", "/users/:id", 5⟩] : List Gateway.Route).get ⟨i, hi⟩ =
        (⟨"GET", "/users/:id", 5⟩ : Gateway.Route) ∧
      (⟨"GET", "/users/:id", 5⟩ : Gateway.Route).method = "GET" ∧
      Gateway.patMatch ("/users/:id").toList (("/users/7").toList) =
        some [("id", "7")] ∧
      ∀ j, ∀ hj : j < i,
        (([⟨"GET", "/users/:id", 5⟩] : List Gateway.Route).get
          ⟨j, Nat.lt_trans hj hi⟩).method = "GET" →
        Gateway.patMatch (([⟨"GET", "/users/:id", 5⟩] :
          List Gateway.Route).get ⟨j, Nat.lt_trans hj hi⟩).path.toList
          (("/users/7").toList) = none) ∧
    Gateway.segMatch [':', 'i', 'd'] ['4', '2'] = some [("id", "42")] ∧
    Gateway.normalize (("/users/42" ++ "/").toList) =
      Gateway.normalize ("/users/42").toList := by
  refine ⟨claim6_route_matcher.1 _ _ _, ?_, ?_, ?_⟩
  · exact claim6_route_matcher.2.1 [⟨"GET", "/users/:id", 5⟩] "GET"
      (("/users/7").toList) ⟨"GET", "/users/:id", 5⟩ [("id", "7")] (by decide)
  · exact (claim6_route_matcher.2.2.1 ['i', 'd'] ['4', '2']).mpr (by decide)
  · exact claim6_route_matcher.2.2.2 "/users/42" (by decide) (by decide)

/-! ### Lemmas: the warm pool (C1, C4, C9) -/

namespace Pool

theorem totalCount_eq_flat (s : PoolState) :
    totalCount s = (flatEntries s).length := by
  induction s with
  | nil => rfl
  | cons kv rest ih => simp [totalCount, flatEntries] at *; omega

theorem lookupD_cons_pos {kv : Key × List Entry} {rest : PoolState} {k : Key}
    (h : kv.1 = k) : lookupD (kv :: rest) k = kv.2 := by
  unfold lookupD
  rw [List.find?_cons_of_pos _ (by simp [h])]

theorem lookupD_cons_neg {kv : Key × List Entry} {rest : PoolState} {k : Key}
    (h : ¬ kv.1 = k) : lookupD (kv :: rest) k = lookupD rest k := by
  unfold lookupD
  rw [List.find?_cons_of_neg _ (by simp [h])]

theorem hasKey_iff (s : PoolState) (k : Key) :
    hasKey s k = true ↔ k ∈ keys s := by
  unfold hasKey keys
  rw [List.any_eq_true]
  constructor
  · rintro ⟨kv, hmem, hdec⟩
    have hk : kv.1 = k := by simpa using hdec
    rw [← hk]
    exact List.mem_map_of_mem _ hmem
  · intro hmem
    obtain ⟨kv, hmem2, hk⟩ := List.mem_map.mp hmem
    exact ⟨kv, hmem2, by simp [hk]⟩

theorem hasKey_of_lookupD_ne {s : PoolState} {k : Key}
    (h : lookupD s k ≠ []) : hasKey s k = true := by
  induction s with
  | nil => exact absurd rfl h
  | cons kv rest ih =>
    by_cases hk : kv.1 = k
    · unfold hasKey
      simp only [List.any_cons, Bool.or_eq_true]
      exact Or.inl (by simp [hk])
    · rw [lookupD_cons_neg hk] at h
      have hr := ih h
      unfold hasKey at hr ⊢
      simp only [List.any_cons, Bool.or_eq_true]
      exact Or.inr hr

theorem hasKey_cons_of_ne {kv : Key × List Entry} {rest : PoolState} {k : Key}
    (h : ¬ kv.1 = k) : hasKey (kv :: rest) k = hasKey rest k := by
  unfold hasKey
  simp [List.any_cons, h]

theorem setKey_cons {kv : Key × List Entry} {rest : PoolState} {k : Key}
    {v : List Entry} (h : ¬ kv.1 = k) :
    setKey (kv :: rest) k v = kv :: setKey rest k v := by
  unfold setKey
  rw [hasKey_cons_of_ne h]
  by_cases hr : hasKey rest k = true
  · rw [if_pos hr, if_pos hr]
    show setExisting (kv :: rest) k v = kv :: setExisting rest k v
    simp only [setExisting]
    rw [if_neg h]
  · rw [if_neg hr, if_neg hr]
    rfl

theorem setKey_head {kv : Key × List Entry} {rest : PoolState} {k : Key}
    {v : List Entry} (h : kv.1 = k) :
    setKey (kv :: rest) k v = (k, v) :: rest := by
  have hh : hasKey (kv :: rest) k = true := by
    unfold hasKey
    simp only [List.any_cons, Bool.or_eq_true]
    exact Or.inl (by simp [h])
  unfold setKey
  rw [if_pos hh]
  show setExisting (kv :: rest) k v = (k, v) :: rest
  unfold setExisting
  rw [if_pos h]

theorem setKey_total (s : PoolState) (k : Key) (v : List Entry) :
    totalCount (setKey s k v) + (lookupD s k).length =
      totalCount s + v.length := by
  induction s with
  | nil =>
    show totalCount ([] ++ [(k, v)]) + (lookupD [] k).length = _
    simp [totalCount, lookupD]
  | cons kv rest ih =>
    by_cases h : kv.1 = k
    · rw [setKey_head h, lookupD_cons_pos h]
      simp [totalCount]
      omega
    · rw [setKey_cons h, lookupD_cons_neg h]
      simp [totalCount] at ih ⊢
      omega

theorem delKey_total (s : PoolState) (k : Key) :
    totalCount (delKey s k) + (lookupD s k).length = totalCount s := by
  induction s with
  | nil => simp [delKey, lookupD, totalCount]
  | cons kv rest ih =>
    by_cases h : kv.1 = k
    · unfold delKey
      rw [if_pos h, lookupD_cons_pos h]
      simp [totalCount]
      omega
    · unfold delKey
      rw [if_neg h, lookupD_cons_neg h]
      simp [totalCount] at ih ⊢
      omega

theorem keys_setExisting (s : PoolState) (k : Key) (v : List Entry) :
    keys (setExisting s k v) = keys s := by
  induction s with
  | nil => rfl
  | cons kv rest ih =>
    unfold setExisting
    by_cases h : kv.1 = k
    · simp [h, keys]
    · simp [h, keys] at ih ⊢
      exact ih

theorem keys_setKey (s : PoolState) (k : Key) (v : List Entry) :
    keys (setKey s k v) = keys s ∨
      (keys (setKey s k v) = keys s ++ [k] ∧ k ∉ keys s) := by
  unfold setKey
  by_cases h : hasKey s k = true
  · rw [if_pos h]
    exact Or.inl (keys_setExisting s k v)
  · rw [if_neg h]
    refine Or.inr ⟨?_, fun hmem => h ((hasKey_iff s k).mpr hmem)⟩
    simp [keys]

theorem keysNodup_setKey {s : PoolState} (hnd : keysNodup s) (k : Key)
    (v : List Entry) : keysNodup (setKey s k v) := by
  unfold keysNodup at *
  rcases keys_setKey s k v with h | ⟨h, hmem⟩
  · rw [h]; exact hnd
  · rw [h]
    simp [List.nodup_append, hnd, hmem]

theorem keys_delKey_sublist (s : PoolState) (k : Key) :
    (keys (delKey s k)).Sublist (keys s) := by
  induction s with
  | nil => simp [delKey]
  | cons kv rest ih =>
    unfold delKey
    by_cases h : kv.1 = k
    · rw [if_pos h]
      exact (List.sublist_cons_self _ _)
    · rw [if_neg h]
      exact List.Sublist.cons₂ _ ih

theorem keysNodup_delKey {s : PoolState} (hnd : keysNodup s) (k : Key) :
    keysNodup (delKey s k) := by
  exact List.Nodup.sublist (keys_delKey_sublist s k) hnd

theorem flatPairs_cons (kv : Key × List Entry) (rest : PoolState) :
    flatPairs (kv :: rest) =
      kv.2.enum.map (fun ie => (kv.1, ie.1, ie.2)) ++ flatPairs rest := by
  simp [flatPairs]

theorem flatEntries_cons (kv : Key × List Entry) (rest : PoolState) :
    flatEntries (kv :: rest) = kv.2 ++ flatEntries rest := by
  simp [flatEntries]

theorem flatPairs_map (s : PoolState) :
    (flatPairs s).map (fun x => x.2.2) = flatEntries s := by
  induction s with
  | nil => rfl
  | cons kv rest ih =>
    rw [flatPairs_cons, flatEntries_cons, List.map_append, ih]
    congr 1
    rw [List.map_map]
    exact List.enumFrom_map_snd 0 kv.2

theorem flatPairs_length (s : PoolState) :
    (flatPairs s).length = (flatEntries s).length := by
  rw [← flatPairs_map s, List.length_map]

theorem flatPairs_key_mem (s : PoolState) :
    ∀ x ∈ flatPairs s, x.1 ∈ keys s := by
  induction s with
  | nil => intro x hx; simp [flatPairs] at hx
  | cons kv rest ih =>
    intro x hx
    rw [flatPairs_cons] at hx
    rcases List.mem_append.mp hx with hx | hx
    · obtain ⟨ie, _, rfl⟩ := List.mem_map.mp hx
      exact List.mem_cons_self _ _
    · exact List.mem_cons_of_mem _ (ih x hx)

theorem evictScan_eq_foldl (s : PoolState) :
    evictScan s = (flatPairs s).foldl scanStep none := by
  suffices H : ∀ acc, s.foldl
      (fun acc kv =>
        kv.2.enum.foldl (fun a ie => scanStep a (kv.1, ie.1, ie.2)) acc)
      acc = (flatPairs s).foldl scanStep acc from H none
  induction s with
  | nil => intro acc; rfl
  | cons kv rest ih =>
    intro acc
    rw [flatPairs_cons, List.foldl_append, List.foldl_cons, List.foldl_map]
    exact ih _

theorem foldl_scanStep_some (l : List (Key × Nat × Entry)) :
    ∀ b, l.foldl scanStep (some b) = some (firstMin b l) := by
  induction l with
  | nil => intro b; rfl
  | cons x xs ih =>
    intro b
    obtain ⟨t, k, i⟩ := b
    rw [List.foldl_cons]
    have hstep : scanStep (some (t, k, i)) x =
        some (if x.2.2.idleSince < t then (x.2.2.idleSince, x.1, x.2.1)
          else (t, k, i)) := by
      by_cases h : x.2.2.idleSince < t <;> simp [scanStep, h]
    rw [hstep, ih]
    rfl

theorem foldl_scanStep_none (x : Key × Nat × Entry)
    (xs : List (Key × Nat × Entry)) :
    (x :: xs).foldl scanStep none =
      some (firstMin (x.2.2.idleSince, x.1, x.2.1) xs) := by
  rw [List.foldl_cons]
  exact foldl_scanStep_some xs _

theorem firstMin_spec (l : List (Key × Nat × Entry)) :
    ∀ b : Int × Key × Nat,
    (firstMin b l).1 ≤ b.1 ∧
    (∀ m, ∀ hm : m < l.length,
      (firstMin b l).1 ≤ (l.get ⟨m, hm⟩).2.2.idleSince) ∧
    (firstMin b l = b ∨
      ∃ j, ∃ hj : j < l.length,
        firstMin b l = ((l.get ⟨j, hj⟩).2.2.idleSince, (l.get ⟨j, hj⟩).1,
          (l.get ⟨j, hj⟩).2.1) ∧
        (firstMin b l).1 < b.1 ∧
        ∀ m, ∀ hm : m < j,
          (firstMin b l).1 < (l.get ⟨m, Nat.lt_trans hm hj⟩).2.2.idleSince) := by
  induction l with
  | nil =>
    intro b
    exact ⟨le_refl _, fun m hm => absurd hm (by simp), Or.inl rfl⟩
  | cons x xs ih =>
    intro b
    have hfm : firstMin b (x :: xs) =
        firstMin (if x.2.2.idleSince < b.1 then (x.2.2.idleSince, x.1, x.2.1)
          else b) xs := rfl
    set b' := if x.2.2.idleSince < b.1 then (x.2.2.idleSince, x.1, x.2.1)
      else b with hb'
    obtain ⟨ih1, ih2, ih3⟩ := ih b'
    have hb'le : b'.1 ≤ b.1 := by
      rw [hb']
      by_cases h : x.2.2.idleSince < b.1
      · rw [if_pos h]; exact le_of_lt h
      · rw [if_neg h]
    have hb'x : b'.1 ≤ x.2.2.idleSince := by
      rw [hb']
      by_cases h : x.2.2.idleSince < b.1
      · rw [if_pos h]
      · rw [if_neg h]; omega
    refine ⟨?_, ?_, ?_⟩
    · rw [hfm]; exact le_trans ih1 hb'le
    · intro m hm
      cases m with
      | zero => rw [hfm]; exact le_trans ih1 hb'x
      | succ m2 => rw [hfm]; exact ih2 m2 (Nat.lt_of_succ_lt_succ hm)
    · rcases ih3 with hkeep | ⟨j, hj, hval, hlt, hstrict⟩
      · by_cases h : x.2.2.idleSince < b.1
        · right
          refine ⟨0, by simp, ?_, ?_, ?_⟩
          · rw [hfm, hkeep, hb', if_pos h]; rfl
          · rw [hfm, hkeep, hb', if_pos h]; exact h
          · intro m hm; exact absurd hm (Nat.not_lt_zero m)
        · left
          rw [hfm, hkeep, hb', if_neg h]
      · right
        refine ⟨j + 1, Nat.succ_lt_succ hj, ?_, ?_, ?_⟩
        · rw [hfm, hval]; rfl
        · rw [hfm]; exact lt_of_lt_of_le hlt hb'le
        · intro m hm
          cases m with
          | zero => rw [hfm]; exact lt_of_lt_of_le hlt hb'x
          | succ m2 => rw [hfm]; exact hstrict m2 (Nat.lt_of_succ_lt_succ hm)

theorem scan_result (x : Key × Nat × Entry) (xs : List (Key × Nat × Entry)) :
    ∃ j, ∃ hj : j < (x :: xs).length,
      (x :: xs).foldl scanStep none =
        some (((x :: xs).get ⟨j, hj⟩).2.2.idleSince,
          ((x :: xs).get ⟨j, hj⟩).1, ((x :: xs).get ⟨j, hj⟩).2.1) ∧
      (∀ m, ∀ hm : m < (x :: xs).length,
        ((x :: xs).get ⟨j, hj⟩).2.2.idleSince ≤
          ((x :: xs).get ⟨m, hm⟩).2.2.idleSince) ∧
      ∀ m, ∀ hm : m < j,
        ((x :: xs).get ⟨j, hj⟩).2.2.idleSince <
          ((x :: xs).get ⟨m, Nat.lt_trans hm hj⟩).2.2.idleSince := by
  rw [foldl_scanStep_none]
  obtain ⟨s1, s2, s3⟩ := firstMin_spec xs (x.2.2.idleSince, x.1, x.2.1)
  rcases s3 with hkeep | ⟨j, hj, hval, hlt, hstrict⟩
  · refine ⟨0, by simp, ?_, ?_, ?_⟩
    · rw [hkeep]; rfl
    · intro m hm
      cases m with
      | zero => exact le_refl _
      | succ m2 =>
        have := s2 m2 (Nat.lt_of_succ_lt_succ hm)
        rw [hkeep] at this
        exact this
    · intro m hm; exact absurd hm (Nat.not_lt_zero m)
  · refine ⟨j + 1, Nat.succ_lt_succ hj, ?_, ?_, ?_⟩
    · rw [hval]; rfl
    · intro m hm
      cases m with
      | zero =>
        have : (firstMin (x.2.2.idleSince, x.1, x.2.1) xs).1 <
            x.2.2.idleSince := hlt
        rw [hval] at this
        exact le_of_lt this
      | succ m2 =>
        have := s2 m2 (Nat.lt_of_succ_lt_succ hm)
        rw [hval] at this
        exact this
    · intro m hm
      cases m with
      | zero =>
        have : (firstMin (x.2.2.idleSince, x.1, x.2.1) xs).1 <
            x.2.2.idleSince := hlt
        rw [hval] at this
        exact this
      | succ m2 =>
        have := hstrict m2 (Nat.lt_of_succ_lt_succ hm)
        rw [hval] at this
        exact this

theorem keysNodup_cons {kv : Key × List Entry} {rest : PoolState} :
    keysNodup (kv :: rest) ↔ kv.1 ∉ keys rest ∧ keysNodup rest := by
  unfold keysNodup keys
  simp [List.nodup_cons]

theorem evictRemove_cons {kv : Key × List Entry} {rest : PoolState} {k : Key}
    {i : Nat} (h : ¬ kv.1 = k) :
    evictRemove (kv :: rest) k i = kv :: evictRemove rest k i := by
  show (if (lookupD (kv :: rest) k).eraseIdx i = [] then delKey (kv :: rest) k
    else setKey (kv :: rest) k ((lookupD (kv :: rest) k).eraseIdx i)) =
    kv :: (if (lookupD rest k).eraseIdx i = [] then delKey rest k
      else setKey rest k ((lookupD rest k).eraseIdx i))
  rw [lookupD_cons_neg h]
  by_cases he : (lookupD rest k).eraseIdx i = []
  · rw [if_pos he, if_pos he]
    show delKey (kv :: rest) k = kv :: delKey rest k
    simp only [delKey]
    rw [if_neg h]
  · rw [if_neg he, if_neg he]
    exact setKey_cons h

theorem flatPairs_get_spec (s : PoolState) (hnd : keysNodup s) :
    ∀ (j : Nat) (hj : j < (flatPairs s).length) (k : Key) (i : Nat)
      (e : Entry),
      (flatPairs s).get ⟨j, hj⟩ = (k, i, e) →
      (lookupD s k).get? i = some e ∧
      flatEntries (evictRemove s k i) = (flatEntries s).eraseIdx j := by
  induction s with
  | nil => intro j hj; simp [flatPairs] at hj
  | cons kv rest ih =>
    intro j hj k i e hget
    obtain ⟨hnotin, hndrest⟩ := keysNodup_cons.mp hnd
    have hblen : (kv.2.enum.map
        (fun ie => ((kv.1 : Key), ie.1, ie.2))).length = kv.2.length := by
      simp
    have hlen2 : (flatPairs (kv :: rest)).length =
        kv.2.length + (flatPairs rest).length := by
      rw [flatPairs_cons]
      simp
    by_cases hcase : j < kv.2.length
    · have hget' : (flatPairs (kv :: rest)).get ⟨j, hj⟩ =
          (kv.1, j, kv.2.get ⟨j, hcase⟩) := by
        rw [List.get_eq_getElem]
        have hb : j < (kv.2.enum.map (fun ie => ((kv.1 : Key), ie.1, ie.2))
            ++ flatPairs rest).length := by
          rw [← flatPairs_cons]; exact hj
        have h1 : (flatPairs (kv :: rest))[j] =
            (kv.2.enum.map (fun ie => ((kv.1 : Key), ie.1, ie.2)) ++
              flatPairs rest)[j] := by
          congr 1
        rw [h1, List.getElem_append_left (by simpa using hcase),
          List.getElem_map]
        have hbe : j < kv.2.enum.length := by simpa using hcase
        have he1 : kv.2.enum[j] = (j, kv.2[j]) := by
          have h3 := List.getElem_enumFrom kv.2 0 j hbe
          simpa using h3
        rw [he1]
        simp
      rw [hget] at hget'
      have hket : k = kv.1 ∧ i = j ∧ e = kv.2.get ⟨j, hcase⟩ := by
        simpa [Prod.ext_iff] using hget'
      obtain ⟨rfl, rfl, rfl⟩ := hket
      constructor
      · rw [lookupD_cons_pos rfl]
        exact List.get?_eq_get hcase
      · have hre : evictRemove (kv :: rest) kv.1 i =
            if kv.2.eraseIdx i = [] then delKey (kv :: rest) kv.1
            else setKey (kv :: rest) kv.1 (kv.2.eraseIdx i) := by
          show (if (lookupD (kv :: rest) kv.1).eraseIdx i = [] then _
            else setKey (kv :: rest) kv.1
              ((lookupD (kv :: rest) kv.1).eraseIdx i)) = _
          rw [lookupD_cons_pos rfl]
        by_cases hnil : kv.2.eraseIdx i = []
        · rw [hre, if_pos hnil]
          have hdel : delKey (kv :: rest) kv.1 = rest := by
            unfold delKey
            rw [if_pos rfl]
          have hlen1 : kv.2.length = 1 := by
            have := List.length_eraseIdx kv.2 i
            rw [hnil] at this
            simp [hcase] at this
            omega
          have hi0 : i = 0 := by omega
          obtain ⟨a, ha⟩ := List.length_eq_one.mp hlen1
          rw [hdel, flatEntries_cons, ha, hi0]
          rfl
        · rw [hre, if_neg hnil, setKey_head rfl]
          rw [flatEntries_cons, flatEntries_cons]
          exact (List.eraseIdx_append_of_lt_length hcase _).symm
    · have hjr : j - kv.2.length < (flatPairs rest).length := by omega
      have hget' : (flatPairs (kv :: rest)).get ⟨j, hj⟩ =
          (flatPairs rest).get ⟨j - kv.2.length, hjr⟩ := by
        rw [List.get_eq_getElem, List.get_eq_getElem]
        have hb : j < (kv.2.enum.map (fun ie => ((kv.1 : Key), ie.1, ie.2))
            ++ flatPairs rest).length := by
          rw [← flatPairs_cons]; exact hj
        have h1 : (flatPairs (kv :: rest))[j] =
            (kv.2.enum.map (fun ie => ((kv.1 : Key), ie.1, ie.2)) ++
              flatPairs rest)[j] := by
          congr 1
        rw [h1, List.getElem_append_right (by simpa using Nat.le_of_not_lt hcase)]
        congr 1 <;> simp
      have hrest := ih hndrest (j - kv.2.length) hjr k i e
        (hget'.symm.trans hget)
      obtain ⟨c1, c2⟩ := hrest
      have hkmem : k ∈ keys rest := by
        have hmem : (k, i, e) ∈ flatPairs rest := by
          rw [← hget'.symm.trans hget]
          exact List.get_mem _ _ _
        exact flatPairs_key_mem rest _ hmem
      have hkne : ¬ kv.1 = k := fun hh => hnotin (hh ▸ hkmem)
      constructor
      · rw [lookupD_cons_neg hkne]
        exact c1
      · rw [evictRemove_cons hkne, flatEntries_cons, flatEntries_cons, c2]
        exact (List.eraseIdx_append_of_length_le
          (Nat.le_of_not_lt hcase) _).symm

theorem scan_result' (l : List (Key × Nat × Entry)) (hne : l ≠ []) :
    ∃ j, ∃ hj : j < l.length,
      l.foldl scanStep none = some ((l.get ⟨j, hj⟩).2.2.idleSince,
        (l.get ⟨j, hj⟩).1, (l.get ⟨j, hj⟩).2.1) ∧
      (∀ m, ∀ hm : m < l.length,
        (l.get ⟨j, hj⟩).2.2.idleSince ≤ (l.get ⟨m, hm⟩).2.2.idleSince) ∧
      ∀ m, ∀ hm : m < j,
        (l.get ⟨j, hj⟩).2.2.idleSince <
          (l.get ⟨m, Nat.lt_trans hm hj⟩).2.2.idleSince := by
  cases l with
  | nil => exact absurd rfl hne
  | cons x xs => exact scan_result x xs

theorem flatEntries_get (s : PoolState) (m : Nat)
    (hm : m < (flatEntries s).length) (hmp : m < (flatPairs s).length) :
    (flatEntries s).get ⟨m, hm⟩ = ((flatPairs s).get ⟨m, hmp⟩).2.2 := by
  have h7 : (flatEntries s).get? m =
      ((flatPairs s).map (fun x => x.2.2)).get? m := by
    rw [flatPairs_map s]
  rw [List.get?_eq_get hm] at h7
  have h8 : ((flatPairs s).map (fun x => x.2.2)).get? m =
      some (((flatPairs s).get ⟨m, hmp⟩).2.2) := by
    rw [List.get?_eq_get (by simpa using hmp)]
    simp
  rw [h8] at h7
  exact Option.some_injective _ h7

theorem evictLRU_spec (s : PoolState) (hnd : keysNodup s)
    (hpos : 0 < totalCount s) :
    ∃ j, ∃ hj : j < (flatEntries s).length,
      (evictLRU s).2 = some ((flatEntries s).get ⟨j, hj⟩) ∧
      flatEntries (evictLRU s).1 = (flatEntries s).eraseIdx j ∧
      (∀ m, ∀ hm : m < (flatEntries s).length,
        ((flatEntries s).get ⟨j, hj⟩).idleSince ≤
          ((flatEntries s).get ⟨m, hm⟩).idleSince) ∧
      ∀ m, ∀ hm : m < j,
        ((flatEntries s).get ⟨j, hj⟩).idleSince <
          ((flatEntries s).get ⟨m, Nat.lt_trans hm hj⟩).idleSince := by
  have hfl : 0 < (flatPairs s).length := by
    rw [flatPairs_length, ← totalCount_eq_flat]
    exact hpos
  have hne : flatPairs s ≠ [] := by
    intro h0
    rw [h0] at hfl
    simp at hfl
  obtain ⟨j, hjp, hfold, hmin, hstrict⟩ := scan_result' (flatPairs s) hne
  have hscan : evictScan s =
      some (((flatPairs s).get ⟨j, hjp⟩).2.2.idleSince,
        ((flatPairs s).get ⟨j, hjp⟩).1, ((flatPairs s).get ⟨j, hjp⟩).2.1) := by
    rw [evictScan_eq_foldl]
    exact hfold
  obtain ⟨c1, c2⟩ := flatPairs_get_spec s hnd j hjp
    ((flatPairs s).get ⟨j, hjp⟩).1 ((flatPairs s).get ⟨j, hjp⟩).2.1
    ((flatPairs s).get ⟨j, hjp⟩).2.2 rfl
  have hev : evictLRU s =
      (evictRemove s ((flatPairs s).get ⟨j, hjp⟩).1
        ((flatPairs s).get ⟨j, hjp⟩).2.1,
        some ((flatPairs s).get ⟨j, hjp⟩).2.2) := by
    simp only [evictLRU, hscan, c1]
  have hj_e : j < (flatEntries s).length := by
    rw [← flatPairs_length]
    exact hjp
  have hgete : (flatEntries s).get ⟨j, hj_e⟩ =
      ((flatPairs s).get ⟨j, hjp⟩).2.2 := flatEntries_get s j hj_e hjp
  refine ⟨j, hj_e, ?_, ?_, ?_, ?_⟩
  · rw [hev, hgete]
  · rw [hev]
    exact c2
  · intro m hm
    have hmp : m < (flatPairs s).length := by
      rw [flatPairs_length]
      exact hm
    rw [hgete, flatEntries_get s m hm hmp]
    exact hmin m hmp
  · intro m hm
    have hmp : m < (flatPairs s).length := by
      rw [flatPairs_length]
      exact Nat.lt_trans hm hj_e
    rw [hgete, flatEntries_get s m (Nat.lt_trans hm hj_e) hmp]
    exact hstrict m hm

theorem evict_total {s : PoolState} (hnd : keysNodup s)
    (hpos : 0 < totalCount s) :
    totalCount (evictLRU s).1 + 1 = totalCount s := by
  obtain ⟨j, hj, _, herase, _, _⟩ := evictLRU_spec s hnd hpos
  rw [totalCount_eq_flat, totalCount_eq_flat, herase, List.length_eraseIdx]
  rw [if_pos hj]
  omega

theorem keysNodup_evictRemove {s : PoolState} (hnd : keysNodup s)
    (k : Key) (i : Nat) : keysNodup (evictRemove s k i) := by
  show keysNodup (if (lookupD s k).eraseIdx i = [] then delKey s k
    else setKey s k ((lookupD s k).eraseIdx i))
  by_cases h : (lookupD s k).eraseIdx i = []
  · rw [if_pos h]
    exact keysNodup_delKey hnd k
  · rw [if_neg h]
    exact keysNodup_setKey hnd k _

theorem evictLRU_nodup {s : PoolState} (hnd : keysNodup s) :
    keysNodup (evictLRU s).1 := by
  cases hscan : evictScan s with
  | none =>
    have h0 : (evictLRU s).1 = s := by simp only [evictLRU, hscan]
    rw [h0]
    exact hnd
  | some tki =>
    obtain ⟨t, k, i⟩ := tki
    cases hgq : (lookupD s k).get? i with
    | none =>
      have h0 : (evictLRU s).1 = s := by simp only [evictLRU, hscan, hgq]
      rw [h0]
      exact hnd
    | some e =>
      have h0 : (evictLRU s).1 = evictRemove s k i := by
        simp only [evictLRU, hscan, hgq]
      rw [h0]
      exact keysNodup_evictRemove hnd k i

theorem evict_total_le (t : PoolState) :
    totalCount (evictLRU t).1 ≤ totalCount t := by
  cases hscan : evictScan t with
  | none =>
    have h0 : (evictLRU t).1 = t := by simp only [evictLRU, hscan]
    rw [h0]
  | some tki =>
    obtain ⟨tt, k, i⟩ := tki
    cases hgq : (lookupD t k).get? i with
    | none =>
      have h0 : (evictLRU t).1 = t := by simp only [evictLRU, hscan, hgq]
      rw [h0]
    | some e =>
      have h0 : (evictLRU t).1 = evictRemove t k i := by
        simp only [evictLRU, hscan, hgq]
      rw [h0]
      show totalCount (if (lookupD t k).eraseIdx i = [] then delKey t k
        else setKey t k ((lookupD t k).eraseIdx i)) ≤ totalCount t
      by_cases hni : (lookupD t k).eraseIdx i = []
      · rw [if_pos hni]
        have := delKey_total t k
        omega
      · rw [if_neg hni]
        have h1 := setKey_total t k ((lookupD t k).eraseIdx i)
        have h2 : ((lookupD t k).eraseIdx i).length ≤
            (lookupD t k).length := by
          rw [List.length_eraseIdx]
          split <;> omega
        omega

theorem acquire_none {s : PoolState} {image : String} {net : Bool}
    (h : (acquire s image net).1 = none) : (acquire s image net).2 = s := by
  unfold acquire at *
  cases hg : (lookupD s (image, net)).getLast? with
  | some e => simp [hg] at h
  | none => simp [hg]

theorem acquire_pop {s : PoolState} {image : String} {net : Bool} {c : Nat}
    (h : (acquire s image net).1 = some c) :
    totalCount (acquire s image net).2 + 1 = totalCount s := by
  unfold acquire at *
  cases hg : (lookupD s (image, net)).getLast? with
  | none => simp [hg] at h
  | some e =>
    simp only [hg]
    have hne : lookupD s (image, net) ≠ [] := by
      intro h0
      rw [h0] at hg
      simp at hg
    have hst := setKey_total s (image, net)
      ((lookupD s (image, net)).dropLast)
    rw [List.length_dropLast] at hst
    have hlen : 0 < (lookupD s (image, net)).length :=
      List.length_pos.mpr hne
    omega

theorem acquire_total_le (s : PoolState) (image : String) (net : Bool) :
    totalCount (acquire s image net).2 ≤ totalCount s := by
  cases hq : (acquire s image net).1 with
  | none => rw [acquire_none hq]
  | some c =>
    have := acquire_pop hq
    omega

theorem acquire_nodup {s : PoolState} (hnd : keysNodup s) (image : String)
    (net : Bool) : keysNodup (acquire s image net).2 := by
  unfold acquire
  cases hg : (lookupD s (image, net)).getLast? with
  | none => simpa [hg] using hnd
  | some e =>
    simp only [hg]
    exact keysNodup_setKey hnd _ _

theorem release_total (max : Nat) (s : PoolState) (c : Nat) (image : String)
    (net : Bool) (now : Int) :
    totalCount (release max s c image net now) =
      totalCount (if totalCount s ≥ max then (evictLRU s).1 else s) + 1 := by
  unfold release
  set s1 := if totalCount s ≥ max then (evictLRU s).1 else s with hs1
  show totalCount (setKey s1 (image, net)
    (lookupD s1 (image, net) ++ [⟨c, now⟩])) = totalCount s1 + 1
  have hst := setKey_total s1 (image, net)
    (lookupD s1 (image, net) ++ [⟨c, now⟩])
  rw [List.length_append] at hst
  simp only [List.length_cons, List.length_nil] at hst
  omega

theorem release_nodup {s : PoolState} (hnd : keysNodup s) (max : Nat)
    (c : Nat) (image : String) (net : Bool) (now : Int) :
    keysNodup (release max s c image net now) := by
  unfold release
  apply keysNodup_setKey
  by_cases h : totalCount s ≥ max
  · rw [if_pos h]
    exact evictLRU_nodup hnd
  · rw [if_neg h]
    exact hnd

theorem totalCount_filter_nonempty (t : PoolState) :
    totalCount (t.filter (fun kv => ¬ kv.2 = [])) = totalCount t := by
  induction t with
  | nil => rfl
  | cons kv rest ih =>
    rw [List.filter_cons]
    by_cases h : kv.2 = []
    · rw [if_neg (by simp [h]), ih]
      simp [totalCount, h]
    · rw [if_pos (by simp [h])]
      simp only [totalCount, List.map_cons, List.sum_cons] at ih ⊢
      omega

theorem totalCount_map_filter_le (s : PoolState) (f : Entry → Bool) :
    totalCount (s.map (fun kv => (kv.1, kv.2.filter f))) ≤ totalCount s := by
  induction s with
  | nil => exact le_refl _
  | cons kv rest ih =>
    simp only [List.map_cons, totalCount, List.sum_cons] at ih ⊢
    have := List.length_filter_le f kv.2
    omega

theorem reap_total_le (idleTimeout : Int) (s : PoolState) (now : Int) :
    totalCount (reap idleTimeout s now).1 ≤ totalCount s := by
  unfold reap
  rw [totalCount_filter_nonempty]
  exact totalCount_map_filter_le s _

theorem keys_map_fst (s : PoolState) (f : Key × List Entry → List Entry) :
    keys (s.map (fun kv => (kv.1, f kv))) = keys s := by
  induction s with
  | nil => rfl
  | cons kv rest ih => simpa [keys] using ih

theorem reap_nodup {s : PoolState} (hnd : keysNodup s) (idleTimeout : Int)
    (now : Int) : keysNodup (reap idleTimeout s now).1 := by
  unfold reap keysNodup
  have hsub : (keys ((s.map (fun kv => (kv.1,
      kv.2.filter (fun e => ¬ now - e.idleSince > idleTimeout)))).filter
        (fun kv => ¬ kv.2 = []))).Sublist
      (keys (s.map (fun kv => (kv.1,
        kv.2.filter (fun e => ¬ now - e.idleSince > idleTimeout))))) := by
    exact List.Sublist.map _ (List.filter_sublist _)
  refine List.Nodup.sublist hsub ?_
  rw [keys_map_fst s (fun kv => kv.2.filter
    (fun e => ¬ now - e.idleSince > idleTimeout))]
  exact hnd

theorem stepOp_inv (max : Nat) (idleT : Int) (hmax : 0 < max)
    (s : PoolState) (hnd : keysNodup s) (hle : totalCount s ≤ max)
    (op : Op) :
    keysNodup (stepOp max idleT s op) ∧
      totalCount (stepOp max idleT s op) ≤ max := by
  cases op with
  | acquire image net =>
    exact ⟨acquire_nodup hnd image net,
      le_trans (acquire_total_le s image net) hle⟩
  | release c image net now =>
    refine ⟨release_nodup hnd max c image net now, ?_⟩
    show totalCount (release max s c image net now) ≤ max
    rw [release_total]
    by_cases h : totalCount s ≥ max
    · rw [if_pos h]
      have hpos : 0 < totalCount s := by omega
      have := evict_total hnd hpos
      omega
    · rw [if_neg h]
      omega
  | reap now =>
    exact ⟨reap_nodup hnd idleT now,
      le_trans (reap_total_le idleT s now) hle⟩

theorem run_inv (max : Nat) (idleT : Int) (hmax : 0 < max) :
    ∀ (ops : List Op) (s : PoolState), keysNodup s → totalCount s ≤ max →
      keysNodup (run max idleT ops s) ∧
        totalCount (run max idleT ops s) ≤ max := by
  intro ops
  induction ops with
  | nil => intro s h1 h2; exact ⟨h1, h2⟩
  | cons op rest ih =>
    intro s h1 h2
    obtain ⟨h3, h4⟩ := stepOp_inv max idleT hmax s h1 h2 op
    exact ih _ h3 h4

end Pool

/-- C1: starting from an empty pool, any interleaving of
`acquire` / `release` / `reap` keeps the total number of pooled entries at
or below `max_pool_size` after each operation; and a `release` against a
pool already at capacity evicts an entry first, leaving the total at
capacity. -/
theorem claim1_pool_capacity (maxPoolSize : Nat) (idleTimeout : Int)
    (hmax : 0 < maxPoolSize) :
    (∀ ops : List Pool.Op,
      Pool.totalCount (Pool.run maxPoolSize idleTimeout ops []) ≤
        maxPoolSize) ∧
    ∀ (s : Pool.PoolState) (c : Nat) (image : String) (net : Bool)
      (now : Int), Pool.keysNodup s → Pool.totalCount s = maxPoolSize →
      Pool.totalCount (Pool.release maxPoolSize s c image net now) =
        maxPoolSize := by
  constructor
  · intro ops
    exact (Pool.run_inv maxPoolSize idleTimeout hmax ops []
      (by simp [Pool.keysNodup, Pool.keys]) (by simp [Pool.totalCount])).2
  · intro s c image net now hnd htot
    rw [Pool.release_total, if_pos (ge_of_eq htot)]
    have hpos : 0 < Pool.totalCount s := by omega
    have := Pool.evict_total hnd hpos
    omega

/-- Witness for C1: a concrete operation sequence (three releases into a
pool of capacity two, an acquire, a reap) stays within capacity, and a
release against a full two-entry pool leaves exactly two entries. -/
theorem claim1_pool_capacity_witness :
    Pool.totalCount (Pool.run 2 300
      [Pool.Op.release 1 "img" false 0, Pool.Op.release 2 "img" false 1,
       Pool.Op.release 3 "img" false 2, Pool.Op.acquire "img" false,
       Pool.Op.reap 1000] []) ≤ 2 ∧
    Pool.totalCount (Pool.release 2 [(("img", false), [⟨1, 0⟩, ⟨2, 1⟩])] 3
      "img" false 5) = 2 := by
  exact ⟨(claim1_pool_capacity 2 300 (by decide)).1 _,
    (claim1_pool_capacity 2 300 (by decide)).2
      [(("img", false), [⟨1, 0⟩, ⟨2, 1⟩])] 3 "img" false 5
      (by unfold Pool.keysNodup; decide) (by decide)⟩

/-- C4: when `release` must make room in a full pool, the evicted entry's
`idle_since` is the minimum across all entries of all keys, and among
entries attaining the minimum the first one in scan order is evicted. -/
theorem claim4_lru_eviction (maxPoolSize : Nat) (s : Pool.PoolState)
    (c : Nat) (image : String) (net : Bool) (now : Int)
    (hnd : Pool.keysNodup s) (hfull : Pool.totalCount s ≥ maxPoolSize)
    (hpos : 0 < Pool.totalCount s) :
    Pool.release maxPoolSize s c image net now =
      Pool.setKey (Pool.evictLRU s).1 (image, net)
        (Pool.lookupD (Pool.evictLRU s).1 (image, net) ++ [⟨c, now⟩]) ∧
    ∃ j, ∃ hj : j < (Pool.flatEntries s).length,
      (Pool.evictLRU s).2 = some ((Pool.flatEntries s).get ⟨j, hj⟩) ∧
      (∀ m, ∀ hm : m < (Pool.flatEntries s).length,
        ((Pool.flatEntries s).get ⟨j, hj⟩).idleSince ≤
          ((Pool.flatEntries s).get ⟨m, hm⟩).idleSince) ∧
      ∀ m, ∀ hm : m < j,
        ((Pool.flatEntries s).get ⟨j, hj⟩).idleSince <
          ((Pool.flatEntries s).get ⟨m, Nat.lt_trans hm hj⟩).idleSince := by
  constructor
  · unfold Pool.release
    rw [if_pos hfull]
  · obtain ⟨j, hj, h1, _h2, h3, h4⟩ := Pool.evictLRU_spec s hnd hpos
    exact ⟨j, hj, h1, h3, h4⟩

/-- Witness for C4 at a concrete full pool: with entries idle since 5, 3,
3 across two keys, the evicted entry is the first one with `idle_since`
3 in scan order. -/
theorem claim4_lru_eviction_witness :
    Pool.release 3 [(("a", false), [⟨1, 5⟩, ⟨2, 3⟩]), (("b", true), [⟨3, 3⟩])]
      9 "a" false 7 =
      Pool.setKey
        (Pool.evictLRU
          [(("a", false), [⟨1, 5⟩, ⟨2, 3⟩]), (("b", true), [⟨3, 3⟩])]).1
        ("a", false)
        (Pool.lookupD
          (Pool.evictLRU
            [(("a", false), [⟨1, 5⟩, ⟨2, 3⟩]), (("b", true), [⟨3, 3⟩])]).1
          ("a", false) ++ [⟨9, 7⟩]) ∧
    (Pool.evictLRU
      [(("a", false), [⟨1, 5⟩, ⟨2, 3⟩]), (("b", true), [⟨3, 3⟩])]).2 =
      some ⟨2, 3⟩ := by
  have h := claim4_lru_eviction 3
    [(("a", false), [⟨1, 5⟩, ⟨2, 3⟩]), (("b", true), [⟨3, 3⟩])] 9 "a" false 7
    (by unfold Pool.keysNodup; decide) (by decide) (by decide)
  exact ⟨h.1, by decide⟩

/-- C9 counterexample: at a concrete full pool, the entry evicted inside
`release` and the entries drained by `shutdown` are destroyed while the
pool lock is held, refuting the claim that sandbox destruction never
happens under the lock. -/
theorem claim9_counterexample :
    Pool.destroyInsideLock
      (Pool.releaseTrace 1 [(("img", false), [⟨1, 0⟩])]) = true ∧
    Pool.destroyInsideLock
      (Pool.shutdownTrace [(("img", false), [⟨1, 0⟩])]) = true := by
  constructor
  · rfl
  · rfl

/-- C9 amended: `reap` destroys its evictees outside the pool lock, but
the entry evicted by `release` and the entries drained by `shutdown` are
destroyed while the lock is held. -/
theorem claim9_amended (idleTimeout : Int) (s : Pool.PoolState) (now : Int)
    (maxPoolSize : Nat) :
    Pool.destroyInsideLock (Pool.reapTrace idleTimeout s now) = false ∧
    (Pool.keysNodup s → Pool.totalCount s ≥ maxPoolSize →
      0 < Pool.totalCount s →
      Pool.destroyInsideLock (Pool.releaseTrace maxPoolSize s) = true) ∧
    (0 < Pool.totalCount s →
      Pool.destroyInsideLock (Pool.shutdownTrace s) = true) := by
  refine ⟨?_, ?_, ?_⟩
  · show Pool.destroyInsideLockAux 0
      ([Pool.Event.lock, Pool.Event.unlock] ++
        (Pool.reap idleTimeout s now).2.map
          (fun e => Pool.Event.destroy e.container)) = false
    show Pool.destroyInsideLockAux 0
      ((Pool.reap idleTimeout s now).2.map
        (fun e => Pool.Event.destroy e.container)) = false
    induction (Pool.reap idleTimeout s now).2 with
    | nil => rfl
    | cons e rest ih => simpa [Pool.destroyInsideLockAux] using ih
  · intro hnd hfull hpos
    obtain ⟨j, hj, h1, _⟩ := Pool.evictLRU_spec s hnd hpos
    unfold Pool.releaseTrace
    rw [if_pos hfull, h1]
    rfl
  · intro hpos
    have hne : Pool.flatEntries s ≠ [] := by
      intro h0
      rw [Pool.totalCount_eq_flat, h0] at hpos
      simp at hpos
    unfold Pool.shutdownTrace
    cases hfe : Pool.flatEntries s with
    | nil => exact absurd hfe hne
    | cons e rest => rfl

/-- Witness for C9 amended: at a concrete pool, `reap` destroys outside
the lock while `release` and `shutdown` destroy inside it. -/
theorem claim9_amended_witness :
    Pool.destroyInsideLock
      (Pool.reapTrace 300 [(("img", false), [⟨1, 0⟩])] 1000) = false ∧
    Pool.destroyInsideLock
      (Pool.releaseTrace 1 [(("img", false), [⟨2, 4⟩])]) = true ∧
    Pool.destroyInsideLock
      (Pool.shutdownTrace [(("img", false), [⟨2, 4⟩])]) = true := by
  exact ⟨(claim9_amended 300 [(("img", false), [⟨1, 0⟩])] 1000 1).1,
    (claim9_amended 300 [(("img", false), [⟨2, 4⟩])] 0 1).2.1
      (by unfold Pool.keysNodup; decide) (by decide) (by decide),
    (claim9_amended 300 [(("img", false), [⟨2, 4⟩])] 0 1).2.2 (by decide)⟩

/-! ### Worker and orchestrator claims (C2, C3, C8) -/

/-- C2: the pooled invocation path enforces no timeout.  `TIMEOUT_SECONDS`
is 30, yet an in-sandbox execution lasting 31 seconds runs to completion:
the invocation reports `success = true` with the function's value — not
`success = false` with "Function timed out after 30 seconds" — and the
sandbox is released back into the pool (the pool grows) instead of being
destroyed. -/
theorem claim2_timeout_not_enforced :
    Worker.TIMEOUT_SECONDS = 30 ∧
    (⟨true, 0, "5", some (Json.num 5), 31⟩ : Worker.Behavior).duration >
      Worker.TIMEOUT_SECONDS ∧
    Invoke.doInvoke 10 [] ⟨true, 0, "5", some (Json.num 5), 31⟩ 7
      "clowdy-python-runtime" false 0 =
      (⟨true, Json.num 5, true⟩,
        [(("clowdy-python-runtime", false), [⟨7, 0⟩])]) ∧
    (Json.num 5 : Json) ≠ Json.str "Function timed out after 30 seconds" := by
  refine ⟨rfl, by decide, rfl, fun h => Json.noConfusion h⟩

/-- C3 counterexample: with one warm sandbox pooled, an invocation whose
worker raises leaves the pool with zero entries — the total changed from
one to zero, refuting "the pool's total count is unchanged". -/
theorem claim3_counterexample :
    Worker.raised ⟨false, 0, "", none, 0⟩ = true ∧
    Pool.totalCount [(("img", false), [⟨1, 0⟩])] = 1 ∧
    Pool.totalCount (Invoke.doInvoke 10 [(("img", false), [⟨1, 0⟩])]
      ⟨false, 0, "", none, 0⟩ 7 "img" false 5).2 = 0 := by
  exact ⟨rfl, rfl, rfl⟩

/-- C3 amended: if the worker raises, the sandbox is destroyed and not
released — the pool count is unchanged for a cold start and drops by
exactly one when a warm sandbox had been acquired; if the worker returns
normally (even with `success = false`), the sandbox is released and the
pool count grows by at most one. -/
theorem claim3_amended (max : Nat) (s : Pool.PoolState)
    (b : Worker.Behavior) (newC : Nat) (image : String) (net : Bool)
    (now : Int) :
    (Worker.raised b = true →
      ((Pool.acquire s image net).1 = none →
        Pool.totalCount (Invoke.doInvoke max s b newC image net now).2 =
          Pool.totalCount s) ∧
      ∀ c, (Pool.acquire s image net).1 = some c →
        Pool.totalCount (Invoke.doInvoke max s b newC image net now).2 + 1 =
          Pool.totalCount s) ∧
    (Worker.raised b = false →
      Pool.totalCount (Invoke.doInvoke max s b newC image net now).2 ≤
        Pool.totalCount s + 1) := by
  cases hx : (Worker.execute b).1 with
  | error msg =>
    have hr : Worker.raised b = true := by
      unfold Worker.raised
      rw [hx]
    have hpool : (Invoke.doInvoke max s b newC image net now).2 =
        (Pool.acquire s image net).2 := by
      unfold Invoke.doInvoke
      rw [hx]
    constructor
    · intro _
      constructor
      · intro hnone
        rw [hpool, Pool.acquire_none hnone]
      · intro c hsome
        rw [hpool]
        exact Pool.acquire_pop hsome
    · intro hfalse
      rw [hr] at hfalse
      exact absurd hfalse (by simp)
  | ok r =>
    have hr : Worker.raised b = false := by
      unfold Worker.raised
      rw [hx]
    have hpool : (Invoke.doInvoke max s b newC image net now).2 =
        Pool.release max (Pool.acquire s image net).2
          ((Pool.acquire s image net).1.getD newC) image net now := by
      unfold Invoke.doInvoke
      rw [hx]
    constructor
    · intro htrue
      rw [hr] at htrue
      exact absurd htrue (by simp)
    · intro _
      rw [hpool, Pool.release_total]
      have hacq := Pool.acquire_total_le s image net
      by_cases h : Pool.totalCount (Pool.acquire s image net).2 ≥ max
      · rw [if_pos h]
        have hev := Pool.evict_total_le (Pool.acquire s image net).2
        omega
      · rw [if_neg h]
        omega

/-- Witness for C3 amended at concrete inputs: a raising worker on an
empty pool leaves it empty; a cleanly failing worker grows the pool by at
most one. -/
theorem claim3_amended_witness :
    Pool.totalCount (Invoke.doInvoke 10 [] ⟨false, 0, "", none, 0⟩ 7 "img"
      false 0).2 = Pool.totalCount ([] : Pool.PoolState) ∧
    Pool.totalCount (Invoke.doInvoke 10 []
      ⟨true, 1, "boom", none, 0⟩ 7 "img" false 0).2 ≤
      Pool.totalCount ([] : Pool.PoolState) + 1 := by
  exact ⟨((claim3_amended 10 [] ⟨false, 0, "", none, 0⟩ 7 "img" false 0).1
      rfl).1 rfl,
    (claim3_amended 10 [] ⟨true, 1, "boom", none, 0⟩ 7 "img" false 0).2 rfl⟩

/-- Helper: `worker_service.execute` performs the injection attempt and,
when it succeeded, the exec — nothing else. -/
theorem execute_trace (b : Worker.Behavior) :
    (Worker.execute b).2 = [Worker.Action.inject] ∨
    (Worker.execute b).2 = [Worker.Action.inject, Worker.Action.execA] := by
  by_cases hio : b.injectOk = false
  · left
    unfold Worker.execute
    rw [if_pos hio]
  · right
    unfold Worker.execute
    rw [if_neg hio]
    by_cases hz : (Worker.execRun b none).1 ≠ 0
    · rw [if_pos hz]
      split <;> first | rfl | (split <;> rfl)
    · rw [if_neg hz]
      split <;> first | rfl | (split <;> rfl)

/-- C8 counterexample: when code injection (`put_archive`) fails, the
worker propagates the exception — it does not return a
`success = false` result as the claim asserts. -/
theorem claim8_inject_counterexample :
    (Worker.execute ⟨false, 0, "", none, 0⟩).1 =
      Except.error ("put_archive failed") ∧
    Worker.raised ⟨false, 0, "", none, 0⟩ = true := by
  exact ⟨rfl, rfl⟩

/-- C8 amended: an injection failure makes `execute` raise (propagate the
exception) after attempting only the injection — no exec, no mutation —
and on every path the worker neither destroys nor pools the sandbox. -/
theorem claim8_amended (b : Worker.Behavior) :
    (b.injectOk = false →
      Worker.execute b =
        (Except.error ("put_archive failed"), [Worker.Action.inject])) ∧
    Worker.Action.destroyA ∉ (Worker.execute b).2 ∧
    Worker.Action.poolA ∉ (Worker.execute b).2 := by
  refine ⟨?_, ?_, ?_⟩
  · intro h
    unfold Worker.execute
    rw [if_pos h]
  · rcases execute_trace b with h | h <;> rw [h] <;> decide
  · rcases execute_trace b with h | h <;> rw [h] <;> decide

/-- Witness for C8 amended: a concrete injection failure raises with only
the injection attempted, and a concrete successful execution performs no
destroy or pool action. -/
theorem claim8_amended_witness :
    Worker.execute ⟨false, 1, "x", none, 0⟩ =
      (Except.error ("put_archive failed"), [Worker.Action.inject]) ∧
    Worker.Action.destroyA ∉
      (Worker.execute ⟨true, 0, "5", some (Json.num 5), 1⟩).2 := by
  exact ⟨(claim8_amended ⟨false, 1, "x", none, 0⟩).1 rfl,
    (claim8_amended ⟨true, 0, "5", some (Json.num 5), 1⟩).2.1⟩

/-! ### Gateway body and dispatch claims (C7, C10) -/

/-- C7 counterexample: for a GET request whose bytes parse as JSON under a
JSON-accepting Content-Type, the claim's body is the parsed object but
the code computes null (the code parses bodies only for POST/PUT/PATCH). -/
theorem claim7_body_counterexample :
    Gateway.gatewayBody "GET" (some (Json.obj [])) [123, 125] =
      Except.ok Json.null ∧
    Gateway.claimedBody true (some (Json.obj [])) [123, 125] =
      Json.obj [] ∧
    (Json.null : Json) ≠ Json.obj [] := by
  exact ⟨rfl, rfl, fun h => Json.noConfusion h⟩

/-- C7 amended: the event body is null for methods other than
POST/PUT/PATCH; for those methods it is the parsed JSON whenever the raw
bytes parse (the Content-Type is never consulted); otherwise the UTF-8
decoding of the bytes when they are non-empty and valid; null when the
body is empty; and non-empty bytes that are invalid UTF-8 raise an error
(surfacing as a 500) instead of producing null. -/
theorem claim7_body_amended (method : String) (parse : Option Json)
    (raw : List Nat) :
    (¬ (method = "POST" ∨ method = "PUT" ∨ method = "PATCH") →
      Gateway.gatewayBody method parse raw = Except.ok Json.null) ∧
    (∀ j, (method = "POST" ∨ method = "PUT" ∨ method = "PATCH") →
      parse = some j →
      Gateway.gatewayBody method parse raw = Except.ok j) ∧
    ((method = "POST" ∨ method = "PUT" ∨ method = "PATCH") →
      parse = none → raw = [] →
      Gateway.gatewayBody method parse raw = Except.ok Json.null) ∧
    (∀ u, (method = "POST" ∨ method = "PUT" ∨ method = "PATCH") →
      parse = none → raw ≠ [] → Gateway.utf8Decode raw = some u →
      Gateway.gatewayBody method parse raw = Except.ok (Json.str u)) ∧
    ((method = "POST" ∨ method = "PUT" ∨ method = "PATCH") →
      parse = none → raw ≠ [] → Gateway.utf8Decode raw = none →
      Gateway.gatewayBody method parse raw = Except.error ()) := by
  refine ⟨?_, ?_, ?_, ?_, ?_⟩
  · intro h
    unfold Gateway.gatewayBody
    rw [if_neg h]
  · intro j hm hp
    unfold Gateway.gatewayBody
    rw [if_pos hm, hp]
  · intro hm hp hraw
    unfold Gateway.gatewayBody
    rw [if_pos hm, hp, if_pos hraw]
  · intro u hm hp hraw hd
    unfold Gateway.gatewayBody
    rw [if_pos hm, hp, if_neg hraw, hd]
  · intro hm hp hraw hd
    unfold Gateway.gatewayBody
    rw [if_pos hm, hp, if_neg hraw, hd]

/-- Witness for C7 amended at concrete requests: GET yields null; POST
with parseable bytes yields the parsed value; empty POST body yields
null; POST bytes "hi" yield the string; POST byte 0xff raises. -/
theorem claim7_body_amended_witness :
    Gateway.gatewayBody "GET" (some (Json.obj [])) [123, 125] =
      Except.ok Json.null ∧
    Gateway.gatewayBody "POST" (some (Json.num 5)) [53] =
      Except.ok (Json.num 5) ∧
    Gateway.gatewayBody "POST" none [] = Except.ok Json.null ∧
    Gateway.gatewayBody "POST" none [104, 105] =
      Except.ok (Json.str "hi") ∧
    Gateway.gatewayBody "POST" none [255] = Except.error () := by
  refine ⟨(claim7_body_amended "GET" (some (Json.obj [])) [123, 125]).1
      (by decide),
    (claim7_body_amended "POST" (some (Json.num 5)) [53]).2.1 (Json.num 5)
      (Or.inl rfl) rfl,
    (claim7_body_amended "POST" none []).2.2.1 (Or.inl rfl) rfl rfl,
    (claim7_body_amended "POST" none [104, 105]).2.2.2.1 "hi" (Or.inl rfl)
      rfl (by decide) (by decide),
    (claim7_body_amended "POST" none [255]).2.2.2.2 (Or.inl rfl) rfl
      (by decide) (by decide)⟩

/-- C10: when the matched route's `function_id` resolves to no Function
row, the gateway answers 503 "The function for this route is not
available" — exactly the same response as for a non-active function, and
not a 404. -/
theorem claim10_dangling_route (routes : List Gateway.Route)
    (functions : List (Nat × Gateway.Fn)) (method path : String)
    (r : Gateway.Route) (ps : List (String × String))
    (hne : routes ≠ [])
    (hmatch : Gateway.matchRoute routes method
      (Gateway.requestPathOf path) = some (r, ps))
    (hdangling : Gateway.lookupFn functions r.functionId = none) :
    Gateway.routeDispatch routes functions method path =
      Gateway.Step.httpError 503
        "The function for this route is not available" ∧
    (∀ fn : Gateway.Fn, ¬ fn.status = "active" →
      Gateway.routeDispatch routes ((r.functionId, fn) :: functions) method
        path =
        Gateway.Step.httpError 503
          "The function for this route is not available") ∧
    ∀ d : String, Gateway.routeDispatch routes functions method path ≠
      Gateway.Step.httpError 404 d := by
  have h1 : Gateway.routeDispatch routes functions method path =
      Gateway.Step.httpError 503
        "The function for this route is not available" := by
    unfold Gateway.routeDispatch
    rw [if_neg hne]
    simp only [hmatch, hdangling]
  refine ⟨h1, ?_, ?_⟩
  · intro fn hst
    unfold Gateway.routeDispatch
    rw [if_neg hne]
    have hl : Gateway.lookupFn ((r.functionId, fn) :: functions)
        r.functionId = some fn := by
      unfold Gateway.lookupFn
      rw [List.find?_cons_of_pos _ (by simp)]
      rfl
    simp only [hmatch, hl]
    rw [if_neg hst]
  · intro d hcontra
    rw [h1] at hcontra
    have : (503 : Nat) = 404 := by
      injection hcontra
    omega

/-- Witness for C10: a concrete project with one route to a missing
function id answers 503 with the fixed message, as does the same route
pointing at an errored function. -/
theorem claim10_dangling_route_witness :
    Gateway.routeDispatch [⟨"GET", "/a", 9⟩] [] "GET" "a" =
      Gateway.Step.httpError 503
        "The function for this route is not available" ∧
    Gateway.routeDispatch [⟨"GET", "/a", 9⟩] [(9, ⟨"f", "error"⟩)] "GET"
      "a" =
      Gateway.Step.httpError 503
        "The function for this route is not available" := by
  have h := claim10_dangling_route [⟨"GET", "/a", 9⟩] [] "GET" "a"
    ⟨"GET", "/a", 9⟩ [] (by decide) (by decide) rfl
  exact ⟨h.1, h.2.1 ⟨"f", "error"⟩ (by decide)⟩
